import Mathlib

/-!
Verification development for a graph-algorithm visualizer: a mutable graph
model with normalized string identifiers plus step-emitting implementations of
classic graph algorithms (breadth-first search, Dijkstra, bipartite check,
Prim, Kruskal, Ford-Fulkerson, Hierholzer/Fleury).

The definitions below are a shallow embedding of the TypeScript source
(`src/utils/algorithms.ts` and the `Graph` class).  JavaScript strings are
modeled as `List Char`, JavaScript `Map`/`Set` objects as association lists
respectively membership lists preserving insertion order (which is what the
JavaScript iteration order guarantees), and `while` loops as fuel-indexed
recursions whose fuel is shown (or chosen) to be sufficient.

The file is organized as: all definitions first, then all theorems.
-/

namespace CTRR

/-- Identifiers are JavaScript strings; modeled as lists of characters. -/
abbrev Str := List Char

/-- Model of `String.prototype.toUpperCase` (faithful on basic latin). -/
def toUpperS (s : Str) : Str := s.map Char.toUpper

/-- Model of `String.prototype.trim`: drop whitespace at both ends. -/
def trimS (s : Str) : Str :=
  ((s.dropWhile Char.isWhitespace).reverse.dropWhile Char.isWhitespace).reverse

/-- The private `Graph#normalizeId`: `id.trim().toUpperCase()`. -/
def normalizeId (s : Str) : Str := toUpperS (trimS s)

/-!
Association lists model JavaScript `Map` objects: `alSet` updates an existing
key in place (keeping its position, as `Map.prototype.set` does) and appends a
new key at the end; iteration order is list order, which matches the
insertion-order iteration of JavaScript `Map`s.
-/

/-- Lookup in an association list (`Map.prototype.get`). -/
def alGet? {α : Type} : List (Str × α) → Str → Option α
  | [], _ => none
  | p :: ps, k => if p.1 = k then some p.2 else alGet? ps k

/-- Key membership (`Map.prototype.has`). -/
def alHas {α : Type} : List (Str × α) → Str → Bool
  | [], _ => false
  | p :: ps, k => (p.1 = k : Bool) || alHas ps k

/-- Insert-or-update (`Map.prototype.set`): update the key in place keeping
its position, else append at the end (keys are unique in every map the
source builds, so updating the first occurrence is faithful). -/
def alSet {α : Type} : List (Str × α) → Str → α → List (Str × α)
  | [], k, v => [(k, v)]
  | p :: ps, k, v => if p.1 = k then (k, v) :: ps else p :: alSet ps k v

/-- Keys of an association list, in insertion order. -/
def alKeys {α : Type} (m : List (Str × α)) : List Str := m.map Prod.fst

/-- Model of a JavaScript `Set.prototype.add`: append if not present. -/
def setAdd (s : List Str) (x : Str) : List Str :=
  if x ∈ s then s else s ++ [x]

/-! The graph model. -/

/-- A vertex: normalized identifier and display label (display coordinates are
carried by the source only for the excluded renderer and are never read by any
algorithm; they are omitted here). -/
structure Node where
  id : Str
  label : Str
deriving DecidableEq, Repr

/-- An edge: ordered endpoint pair, weight, directedness tag.  The field
`from` of the source is called `efrom` here because `from` is a Lean keyword. -/
structure Edge where
  efrom : Str
  eto : Str
  weight : Int
  edirected : Bool
deriving DecidableEq, Repr

/-- The graph: vertex collection (insertion order preserved, as the source's
`Map<string, Node>`), edge list, and the graph-wide directedness flag. -/
structure Graph where
  nodes : List Node
  edges : List Edge
  directed : Bool
deriving DecidableEq, Repr

/-- The graph a session starts from. -/
def emptyGraph : Graph := ⟨[], [], false⟩

/-- Membership test for `this.nodes.has(id)` (argument already normalized). -/
def Graph.hasNode (g : Graph) (nid : Str) : Bool :=
  g.nodes.any (fun n => n.id = nid)

/-- Graph.addNode: normalize, fail with the `null` sentinel on duplicate,
else append the new vertex. -/
def Graph.addNode (g : Graph) (id : Str) : Option Node × Graph :=
  let nid := normalizeId id
  if g.hasNode nid then (none, g)
  else
    let node : Node := { id := nid, label := nid }
    (some node, { g with nodes := g.nodes ++ [node] })

/-- Graph.deleteNode: remove the vertex and every edge touching it. -/
def Graph.deleteNode (g : Graph) (id : Str) : Graph :=
  let nid := normalizeId id
  { g with
    nodes := g.nodes.filter (fun n => !(n.id = nid : Bool)),
    edges := g.edges.filter (fun e => !(e.efrom = nid : Bool) && !(e.eto = nid : Bool)) }

/-- Graph.renameNode: `true` on the trivial rename, `false` when the new id
collides or the old id is absent; on success the renamed vertex moves to the
end of the insertion order (Map delete + set) and edges are rewritten. -/
def Graph.renameNode (g : Graph) (oldId newId : Str) : Bool × Graph :=
  let o := normalizeId oldId
  let n := normalizeId newId
  if o = n then (true, g)
  else if g.hasNode n then (false, g)
  else if g.hasNode o then
    (true, { g with
      nodes := g.nodes.filter (fun nd => !(nd.id = o : Bool)) ++ [{ id := n, label := n }],
      edges := g.edges.map (fun e =>
        { e with
          efrom := if e.efrom = o then n else e.efrom,
          eto := if e.eto = o then n else e.eto }) })
  else (false, g)

/-- Replace the weight of the edge at a given index. -/
def setWeightAt : List Edge → Nat → Int → List Edge
  | [], _, _ => []
  | e :: es, 0, w => { e with weight := w } :: es
  | e :: es, n + 1, w => e :: setWeightAt es n w

/-- Graph.addEdge: normalize, auto-create missing endpoints, then
update-in-place on a duplicate ordered pair, else append a new edge. -/
def Graph.addEdge (g : Graph) (f t : Str) (w : Int) : Graph :=
  let fn := normalizeId f
  let tn := normalizeId t
  let g1 := if g.hasNode fn then g else (g.addNode fn).2
  let g2 := if g1.hasNode tn then g1 else (g1.addNode tn).2
  match g2.edges.findIdx? (fun e => e.efrom = fn && e.eto = tn) with
  | some i => { g2 with edges := setWeightAt g2.edges i w }
  | none =>
    { g2 with edges := g2.edges ++ [{ efrom := fn, eto := tn, weight := w, edirected := g2.directed }] }

/-- Graph.deleteEdge. -/
def Graph.deleteEdge (g : Graph) (f t : Str) : Graph :=
  let fn := normalizeId f
  let tn := normalizeId t
  { g with edges := g.edges.filter (fun e => !((e.efrom = fn : Bool) && (e.eto = tn : Bool))) }

/-- Graph.getNeighbors: normalize the argument, then scan the edge list in
insertion order, adding the head-endpoint for a `from` match and (in
undirected graphs) the tail-endpoint for a `to` match. -/
def Graph.getNeighbors (g : Graph) (id : Str) : List (Str × Int) :=
  let nid := normalizeId id
  (g.edges.map (fun e =>
    (if e.efrom = nid then [(e.eto, e.weight)] else []) ++
    (if !g.directed && (e.eto = nid : Bool) then [(e.efrom, e.weight)] else []))).flatten

/-- Well-formedness invariant maintained by every mutation of the graph
class: edges reference only existing vertices. -/
def Graph.wf (g : Graph) : Prop :=
  ∀ e ∈ g.edges, (∃ n ∈ g.nodes, n.id = e.efrom) ∧ (∃ n ∈ g.nodes, n.id = e.eto)

instance (g : Graph) : Decidable g.wf := by
  unfold Graph.wf
  infer_instance

/-! The step record shared by every producer. -/

/-- Extended numbers: JavaScript number values that occur in the producers.
`undef` stands for `undefined`/`NaN` junk (every comparison with it is
false, as in JavaScript), `inf` for `Infinity`, `fin` for a finite value
(always integral in every run the claims quantify over). -/
inductive ENum where
  | undef : ENum
  | inf : ENum
  | fin : Int → ENum
deriving DecidableEq, Repr

/-- JavaScript `<` on the values above. -/
def ENum.lt : ENum → ENum → Bool
  | .fin a, .fin b => a < b
  | .fin _, .inf => true
  | _, _ => false

/-- JavaScript `+` on the values above (no `-Infinity` ever occurs). -/
def ENum.add : ENum → ENum → ENum
  | .undef, _ => .undef
  | _, .undef => .undef
  | .inf, _ => .inf
  | _, .inf => .inf
  | .fin a, .fin b => .fin (a + b)

/-- JavaScript `Math.min` of an accumulator and a capacity lookup
(`undefined` poisons the minimum to `NaN`, modeled by `undef`). -/
def ENum.minCap : ENum → Option Int → ENum
  | _, none => .undef
  | .undef, _ => .undef
  | .inf, some c => .fin c
  | .fin a, some c => .fin (min a c)

/-- Step tags (the `type` field of the step record). -/
inductive Tag where
  | nodeCurrent | nodeVisit | nodeComplete | edgeVisit | pathFound
  | partition | mstEdge | flowUpdate | eulerPath
deriving DecidableEq, Repr

/-- Human-readable messages are locale-specific template strings; each
constructor stands for one template of the source together with the values
interpolated into it. -/
inductive Msg where
  | visitNode (v : Str)
  | visitEdgeFrom (nb cur : Str)
  | doneNode (v : Str) (order : List Str)
  | processing (v : Str) (d : ENum)
  | updatedDist (v : Str) (d : ENum)
  | shortestPath (path : List Str) (d : ENum)
  | noPath (s e : Str)
  | visitNodeColor (v : Str) (c : Int)
  | visitEdgeColor (v : Str) (c : Int)
  | notBipartite (u v : Str)
  | isBipartite (zeros ones : List Str)
  | startVertex (v : Str)
  | addedEdgeP (u v : Str) (w tot : Int)
  | primDone (tot : Int)
  | considerEdge (u v : Str) (w : Int)
  | addedEdgeK (u v : Str) (tot : Int)
  | rejectEdge (u v : Str)
  | kruskalDone (tot : Int)
  | findingAug (path : List Str)
  | foundEdgeF (u v : Str) (cap : Int)
  | augmented (path : List Str) (inc tot : ENum)
  | flowDone (s t : Str) (tot : ENum)
  | topIs (v : Str) (stack : List Str)
  | visitEdgeH (u v : Str)
  | addedEuler (v : Str) (path : List Str)
  | eulerDone (path : List Str)
deriving DecidableEq, Repr

/-- One externally observable event.  Fields a given emission site does not
set are `none`/`undef`, matching the absent properties of the emitted
object literal. -/
structure Step where
  tag : Tag
  nodeId : Option Str := none
  edgeFrom : Option Str := none
  edgeTo : Option Str := none
  value : ENum := .undef
  totalWeight : ENum := .undef
  path : Option (List Str) := none
  highlightNodes : Option (List Str) := none
  highlightEdges : Option (List (Str × Str)) := none
  partition : Option (List (Str × Int)) := none
  msg : Msg
deriving DecidableEq, Repr

/-! Breadth-first search. -/

/-- Loop body of `bfs`: process the queue; the state is
(queue, visited-in-insertion-order, visit order).  The fuel
`2 * edges + 2` dominates the loop's iteration count: every iteration pops
one queue entry, and entries are enqueued at most once per vertex ever
visited, each of which (beyond the start) is an edge endpoint. -/
def bfsLoop (g : Graph) : Nat → List Str → List Str → List Str → List Step
  | 0, _, _, _ => []
  | _ + 1, [], _, _ => []
  | fuel + 1, current :: rest, visited, order =>
    let order' := order ++ [current]
    let res := (g.getNeighbors current).foldl
      (fun (acc : List Step × List Str × List Str) nb =>
        if nb.1 ∈ acc.2.1 then acc
        else
          (acc.1 ++ [{ tag := .edgeVisit, edgeFrom := some current, edgeTo := some nb.1,
                        highlightNodes := some (acc.2.1 ++ [nb.1]),
                        msg := .visitEdgeFrom nb.1 current }],
            acc.2.1 ++ [nb.1], acc.2.2 ++ [nb.1]))
      ([], visited, rest)
    { tag := .nodeCurrent, nodeId := some current, highlightNodes := some visited,
      msg := .visitNode current } ::
      res.1 ++
      [{ tag := .nodeComplete, nodeId := some current, highlightNodes := some res.2.1,
         msg := .doneNode current order' }] ++
      bfsLoop g fuel res.2.2 res.2.1 order'

/-- The bfs producer.  Note the start identifier is uppercased but (unlike
the graph mutation API) not trimmed: the source does
`startId.toUpperCase()`, not `normalizeId`. -/
def bfs (g : Graph) (startId : Str) : List Step :=
  let start := toUpperS startId
  bfsLoop g (2 * g.edges.length + 2) [start] [start] []

/-! Prim-style minimum spanning tree. -/

/-- One comparison step of the frontier scan: take the candidate when there
is no current minimum or when it is strictly lighter. -/
def selStep (acc : Option (Str × Str × Int)) (e : Str × Str × Int) :
    Option (Str × Str × Int) :=
  match acc with
  | none => some e
  | some m => if e.2.2 < m.2.2 then some e else acc

/-- The source's nested minimum-edge scan: iterate the tree set `inMST` in
its own (set-)insertion order and, per inside endpoint, the neighbor list in
edge insertion order, skipping neighbors already inside. -/
def primSelect (g : Graph) (inMST : List Str) : Option (Str × Str × Int) :=
  inMST.foldl (fun acc u =>
    (g.getNeighbors u).foldl (fun acc2 nb =>
      if nb.1 ∈ inMST then acc2 else selStep acc2 (u, nb.1, nb.2)) acc) none

/-- The crossing-edge enumeration underlying the scan: inside endpoints in
the order they were added to the tree, per endpoint the neighbor entries in
edge insertion order, keeping only edges leaving the tree. -/
def crossList (g : Graph) (inMST : List Str) : List (Str × Str × Int) :=
  (inMST.map (fun u => (g.getNeighbors u).filterMap
    (fun nb => if nb.1 ∈ inMST then none else some (u, nb.1, nb.2)))).flatten

/-- Strict-minimum fold with a seed, matching `selStep` on a `some` seed. -/
def sel1 (a : Str × Str × Int) (l : List (Str × Str × Int)) : Str × Str × Int :=
  l.foldl (fun m e => if e.2.2 < m.2.2 then e else m) a

/-- Main loop of the Prim producer; also returns the final tree state for
the terminal step.  One iteration adds one vertex to the tree, so
`nodes + 1` fuel is never exhausted. -/
def primLoop (g : Graph) : Nat → List Str → List (Str × Str) → Int →
    List Step × List Str × List (Str × Str) × Int
  | 0, inMST, mstEdges, tot => ([], inMST, mstEdges, tot)
  | fuel + 1, inMST, mstEdges, tot =>
    if inMST.length < g.nodes.length then
      match primSelect g inMST with
      | none => ([], inMST, mstEdges, tot)
      | some (u, v, w) =>
        let inMST' := setAdd inMST v
        let mstEdges' := mstEdges ++ [(u, v)]
        let tot' := tot + w
        let r := primLoop g fuel inMST' mstEdges' tot'
        ({ tag := .mstEdge, edgeFrom := some u, edgeTo := some v, value := .fin w,
            highlightNodes := some inMST', highlightEdges := some mstEdges',
            msg := .addedEdgeP u v w tot' } :: r.1, r.2)
    else ([], inMST, mstEdges, tot)

/-- The Prim producer. -/
def primMST (g : Graph) : List Step :=
  match g.nodes with
  | [] => []
  | n0 :: _ =>
    let r := primLoop g (g.nodes.length + 1) [n0.id] [] 0
    { tag := .nodeVisit, nodeId := some n0.id, highlightNodes := some [n0.id],
      msg := .startVertex n0.id } ::
      r.1 ++
      [{ tag := .nodeComplete, highlightNodes := some r.2.1,
         highlightEdges := some r.2.2.1, totalWeight := .fin r.2.2.2,
         msg := .primDone r.2.2.2 }]

/-- Modelled from the claim's words (for comparison with `primSelect`): the
same minimum scan, but enumerating inside endpoints in graph vertex
insertion order — the order vertices were added to the graph — instead of
the order they were added to the tree. -/
def primSelectClaimed (g : Graph) (inMST : List Str) : Option (Str × Str × Int) :=
  ((g.nodes.map Node.id).filter (fun u => (u ∈ inMST : Bool))).foldl
    (fun acc u =>
      (g.getNeighbors u).foldl (fun acc2 nb =>
        if nb.1 ∈ inMST then acc2 else selStep acc2 (u, nb.1, nb.2)) acc) none

/-- The Prim producer as the claim describes it, per-iteration scan order
taken from graph vertex insertion order. -/
def primLoopClaimed (g : Graph) : Nat → List Str → List (Str × Str) → Int →
    List Step × List Str × List (Str × Str) × Int
  | 0, inMST, mstEdges, tot => ([], inMST, mstEdges, tot)
  | fuel + 1, inMST, mstEdges, tot =>
    if inMST.length < g.nodes.length then
      match primSelectClaimed g inMST with
      | none => ([], inMST, mstEdges, tot)
      | some (u, v, w) =>
        let inMST' := setAdd inMST v
        let mstEdges' := mstEdges ++ [(u, v)]
        let tot' := tot + w
        let r := primLoopClaimed g fuel inMST' mstEdges' tot'
        ({ tag := .mstEdge, edgeFrom := some u, edgeTo := some v, value := .fin w,
            highlightNodes := some inMST', highlightEdges := some mstEdges',
            msg := .addedEdgeP u v w tot' } :: r.1, r.2)
    else ([], inMST, mstEdges, tot)

/-- Claim-side Prim producer (see `primSelectClaimed`). -/
def primMSTClaimed (g : Graph) : List Step :=
  match g.nodes with
  | [] => []
  | n0 :: _ =>
    let r := primLoopClaimed g (g.nodes.length + 1) [n0.id] [] 0
    { tag := .nodeVisit, nodeId := some n0.id, highlightNodes := some [n0.id],
      msg := .startVertex n0.id } ::
      r.1 ++
      [{ tag := .nodeComplete, highlightNodes := some r.2.1,
         highlightEdges := some r.2.2.1, totalWeight := .fin r.2.2.2,
         msg := .primDone r.2.2.2 }]

/-- Projection of a trace to its accepted spanning tree edges. -/
def mstEdgesOf (tr : List Step) : List (Option Str × Option Str) :=
  tr.filterMap (fun s => if s.tag = .mstEdge then some (s.edgeFrom, s.edgeTo) else none)

/-- Sample graph distinguishing the tree-insertion-order scan of the source
from the vertex-insertion-order scan of the claim: vertices A, B, C, D,
edges A-C(1), A-B(2), B-D(5), C-D(5). -/
def gPrim : Graph :=
  ((((((((emptyGraph.addNode ['A']).2.addNode ['B']).2.addNode ['C']).2.addNode
      ['D']).2.addEdge ['A'] ['C'] 1).addEdge ['A'] ['B'] 2).addEdge ['B'] ['D'] 5).addEdge
      ['C'] ['D'] 5)

/-! Kruskal-style minimum spanning tree. -/

/-- Stable insertion into an ascending list: a new element goes after every
element of less-or-equal weight.  Together with `sortEdges` this models the
stable ascending sort `edges.sort((a, b) => a.weight - b.weight)`. -/
def insSorted (e : Str × Str × Int) : List (Str × Str × Int) → List (Str × Str × Int)
  | [] => [e]
  | x :: xs => if x.2.2 ≤ e.2.2 then x :: insSorted e xs else e :: x :: xs

/-- Stable ascending sort by weight (ties preserve edge insertion order). -/
def sortEdges (l : List (Str × Str × Int)) : List (Str × Str × Int) :=
  l.foldl (fun acc e => insSorted e acc) []

/-- Union-find `find` with path compression.  The fuel bounds the parent
chain length; `nodes + 1` can never be exhausted because parent chains are
acyclic and visit distinct initialized keys.  A lookup of an uninitialized
key (never reached from `kruskalMST` on well-formed graphs) behaves as a
root. -/
def ufFind : Nat → List (Str × Str) → Str → Str × List (Str × Str)
  | 0, par, x => (x, par)
  | fuel + 1, par, x =>
    let px := (alGet? par x).getD x
    if px = x then (x, par)
    else
      let r := ufFind fuel par px
      (r.1, alSet r.2 x r.1)

/-- Union by rank, returning whether a union happened. -/
def ufUnion (fuel : Nat) (par : List (Str × Str)) (rank : List (Str × Int))
    (x y : Str) : Bool × List (Str × Str) × List (Str × Int) :=
  let fx := ufFind fuel par x
  let fy := ufFind fuel fx.2 y
  let rootX := fx.1
  let rootY := fy.1
  let par2 := fy.2
  if rootX = rootY then (false, par2, rank)
  else
    let rx := (alGet? rank rootX).getD 0
    let ry := (alGet? rank rootY).getD 0
    if rx < ry then (true, alSet par2 rootX rootY, rank)
    else if ry < rx then (true, alSet par2 rootY rootX, rank)
    else (true, alSet par2 rootY rootX, alSet rank rootX (rx + 1))

/-- The Kruskal producer: sort edges ascending (stable), then consider each
in order, emitting a consideration step, then either an acceptance
(mst-edge) or a rejection (node-complete) step; a final node-complete step
carries the total weight. -/
def kruskalMST (g : Graph) : List Step :=
  let edges := sortEdges (g.edges.map (fun e => (e.efrom, e.eto, e.weight)))
  let par0 : List (Str × Str) := g.nodes.foldl (fun m n => alSet m n.id n.id) []
  let rank0 : List (Str × Int) := g.nodes.foldl (fun m n => alSet m n.id 0) []
  let ufF := g.nodes.length + 1
  let r := edges.foldl
    (fun (acc : List Step × List (Str × Str) × List (Str × Int) ×
        List (Str × Str) × Int) e =>
      let (steps, par, rank, mstEdges, tot) := acc
      let step1 : Step := { tag := .edgeVisit, edgeFrom := some e.1,
                            edgeTo := some e.2.1, value := .fin e.2.2,
                            highlightEdges := some mstEdges,
                            msg := .considerEdge e.1 e.2.1 e.2.2 }
      let u := ufUnion ufF par rank e.1 e.2.1
      if u.1 then
        let mstEdges' := mstEdges ++ [(e.1, e.2.1)]
        let tot' := tot + e.2.2
        (steps ++ [step1,
          { tag := .mstEdge, edgeFrom := some e.1, edgeTo := some e.2.1,
            value := .fin e.2.2, highlightEdges := some mstEdges',
            msg := .addedEdgeK e.1 e.2.1 tot' }],
          u.2.1, u.2.2, mstEdges', tot')
      else
        (steps ++ [step1,
          { tag := .nodeComplete, highlightEdges := some mstEdges,
            msg := .rejectEdge e.1 e.2.1 }],
          u.2.1, u.2.2, mstEdges, tot))
    ([], par0, rank0, [], 0)
  r.1 ++ [{ tag := .nodeComplete, highlightEdges := some r.2.2.2.1,
            totalWeight := .fin r.2.2.2.2, msg := .kruskalDone r.2.2.2.2 }]

/-! Bipartite check (BFS-based two-coloring). -/

/-- One neighbor inspection of the two-coloring: color-and-enqueue an
uncolored neighbor (emitting an edge-visit step carrying the coloring so
far), stop the entire check on a same-color conflict (emitting the terminal
partition step), and skip an oppositely colored neighbor. -/
def bipNb (current : Str) (cc : Int) :
    List (Str × Int) → List (Str × Int) → List Str →
    List Step × List (Str × Int) × List Str × Bool
  | [], col, q => ([], col, q, false)
  | nb :: nbs, col, q =>
    match alGet? col nb.1 with
    | none =>
      let col' := alSet col nb.1 (1 - cc)
      let q' := q ++ [nb.1]
      let st : Step := { tag := .edgeVisit, edgeFrom := some current,
                         edgeTo := some nb.1, partition := some col',
                         msg := .visitEdgeColor nb.1 (1 - cc) }
      let r := bipNb current cc nbs col' q'
      (st :: r.1, r.2)
    | some c =>
      if c = cc then
        ([{ tag := .partition, partition := some col,
            msg := .notBipartite current nb.1 }], col, q, true)
      else
        bipNb current cc nbs col q

/-- Fuel for one component's BFS: each iteration pops one queue entry, and
entries ever enqueued are bounded by the seed plus the edge endpoints (see
the stability theorem for this fuel). -/
def bipFuel (g : Graph) : Nat := 2 * g.edges.length + 2

/-- BFS loop of the two-coloring over one component.  Queue members are
always colored, so the `getD 0` default of the `color.get(current)!`
assertion is never taken. -/
def bipLoop (g : Graph) : Nat → List Str → List (Str × Int) →
    List Step × List (Str × Int) × Bool
  | 0, _, col => ([], col, false)
  | _ + 1, [], col => ([], col, false)
  | fuel + 1, current :: rest, col =>
    let cc := (alGet? col current).getD 0
    let st : Step := { tag := .nodeCurrent, nodeId := some current,
                       partition := some col, msg := .visitNodeColor current cc }
    let r := bipNb current cc (g.getNeighbors current) col rest
    if r.2.2.2 then (st :: r.1, r.2.1, true)
    else
      let r2 := bipLoop g fuel r.2.2.1 r.2.1
      (st :: r.1 ++ r2.1, r2.2)

/-- Outer iteration over vertices in insertion order: seed each uncolored
vertex with color 0 and run the component BFS; a conflict stops the whole
check. -/
def bipOuter (g : Graph) : List Node → List (Str × Int) →
    List Step × List (Str × Int) × Bool
  | [], col => ([], col, false)
  | n :: ns, col =>
    if (alGet? col n.id).isSome then bipOuter g ns col
    else
      let col0 := alSet col n.id 0
      let r := bipLoop g (bipFuel g) [n.id] col0
      if r.2.2 then (r.1, r.2.1, true)
      else
        let r2 := bipOuter g ns r.2.1
        (r.1 ++ r2.1, r2.2)

/-- The bipartite-check producer: on conflict the trace ends at the
conflict partition step; otherwise one final partition step lists both
color classes. -/
def checkBipartite (g : Graph) : List Step :=
  let r := bipOuter g g.nodes []
  if r.2.2 then r.1
  else
    r.1 ++ [{ tag := .partition, partition := some r.2.1,
              msg := .isBipartite
                ((r.2.1.filter (fun p => (p.2 = 0 : Bool))).map Prod.fst)
                ((r.2.1.filter (fun p => (p.2 = 1 : Bool))).map Prod.fst) }]

/-- All endpoint occurrences of the edge list: the universe from which the
two-coloring can ever enqueue a vertex. -/
def bipUniv (g : Graph) : List Str :=
  (g.edges.map (fun e => [e.efrom, e.eto])).flatten

/-- Number of endpoint occurrences still uncolored: the decreasing part of
the BFS measure. -/
def uncnt (g : Graph) (col : List (Str × Int)) : Nat :=
  (bipUniv g).countP (fun x => !(alGet? col x).isSome)

/-! Dijkstra shortest path. -/

/-- Index of the first occurrence in a list, with the list's length standing
for absence (a rank function along the visited order). -/
def idxOf : List Str → Str → Nat
  | [], _ => 0
  | a :: as, x => if a = x then 0 else idxOf as x + 1

/-- JavaScript `previous.get(current) || null`: a missing key, a stored
null, and the (never stored) empty string are all falsy. -/
def orNull (v : Option (Option Str)) : Option Str :=
  match v with
  | some (some u) => if u = [] then none else some u
  | _ => none

/-- Backward walk along predecessor links, prepending each vertex
(`path.unshift`).  The fuel bounds the number of hops; `nodes + 2` is
sufficient for every predecessor map the Dijkstra loop can produce (the
stability part of the C1 theorem). -/
def reconstruct : Nat → List (Str × Option Str) → Option Str → List Str → List Str
  | 0, _, _, acc => acc
  | _ + 1, _, none, acc => acc
  | fuel + 1, prev, some cur, acc =>
    reconstruct fuel prev (orNull (alGet? prev cur)) (cur :: acc)

/-- Initial distance (0 for the start, Infinity otherwise) and predecessor
(null) tables over the vertex set. -/
def dijkstraInit (g : Graph) (start : Str) :
    List (Str × ENum) × List (Str × Option Str) :=
  (g.nodes.foldl (fun m n => alSet m n.id (if n.id = start then .fin 0 else .inf)) [],
   g.nodes.foldl (fun m n => alSet m n.id none) [])

/-- One comparison of the linear minimum scan (`!visited.has(id) &&
distances.get(id)! < minDistance`). -/
def scanStep (dist : List (Str × ENum)) (visited : List Str)
    (acc : Option Str × ENum) (n : Node) : Option Str × ENum :=
  if n.id ∉ visited ∧ ENum.lt ((alGet? dist n.id).getD .undef) acc.2 = true then
    (some n.id, (alGet? dist n.id).getD .undef)
  else acc

/-- Linear scan for the unvisited vertex of minimum distance (first
encountered wins), exactly as the source's forEach over all vertices. -/
def scanMin (g : Graph) (dist : List (Str × ENum)) (visited : List Str) :
    Option Str × ENum :=
  g.nodes.foldl (scanStep dist visited) (none, .inf)

/-- Relaxation of a single neighbor: skip visited neighbors, skip neighbors
without a distance entry (in the source `newDistance < undefined` is
false), and update tables and emit an edge-visit step on strict
improvement. -/
def relaxBody (visited : List Str) (current : Str)
    (acc : List Step × List (Str × ENum) × List (Str × Option Str))
    (nb : Str × Int) : List Step × List (Str × ENum) × List (Str × Option Str) :=
  if nb.1 ∈ visited then acc
  else
    let newD := ENum.add ((alGet? acc.2.1 current).getD .undef) (.fin nb.2)
    match alGet? acc.2.1 nb.1 with
    | some dOld =>
      if ENum.lt newD dOld then
        (acc.1 ++ [{ tag := .edgeVisit, edgeFrom := some current,
                     edgeTo := some nb.1, value := newD,
                     msg := .updatedDist nb.1 newD }],
         alSet acc.2.1 nb.1 newD, alSet acc.2.2 nb.1 (some current))
      else acc
    | none => acc

/-- Relax every neighbor of the chosen vertex in neighbor-list order. -/
def relaxAll (visited : List Str) (current : Str) (nbs : List (Str × Int))
    (dist0 : List (Str × ENum)) (prev0 : List (Str × Option Str)) :
    List Step × List (Str × ENum) × List (Str × Option Str) :=
  nbs.foldl (relaxBody visited current) ([], dist0, prev0)

/-- Main Dijkstra loop: pick the unvisited minimum, mark it visited, relax
its neighbors.  Each iteration adds one vertex to the visited set, so the
fuel `nodes + 1` is never exhausted. -/
def dijkstraLoop (g : Graph) : Nat → List (Str × ENum) → List (Str × Option Str) →
    List Str → List Step × List (Str × ENum) × List (Str × Option Str) × List Str
  | 0, dist, prev, visited => ([], dist, prev, visited)
  | fuel + 1, dist, prev, visited =>
    if visited.length < g.nodes.length then
      match scanMin g dist visited with
      | (none, _) => ([], dist, prev, visited)
      | (some current, minD) =>
        if minD = .inf then ([], dist, prev, visited)
        else
          let visited' := setAdd visited current
          let r1 := relaxAll visited' current (g.getNeighbors current) dist prev
          let r2 := dijkstraLoop g fuel r1.2.1 r1.2.2 visited'
          ({ tag := .nodeCurrent, nodeId := some current,
             highlightNodes := some visited',
             msg := .processing current minD } :: r1.1 ++ r2.1, r2.2)
    else ([], dist, prev, visited)

/-- The Dijkstra main phase: initialization plus loop, returning the
emitted steps and the final distance/predecessor/visited state. -/
def dijkstraCore (g : Graph) (start : Str) :
    List Step × List (Str × ENum) × List (Str × Option Str) × List Str :=
  dijkstraLoop g (g.nodes.length + 1) (dijkstraInit g start).1 (dijkstraInit g start).2 []

/-- The terminal path-found step: reconstruct backward from the target and
report the path and total weight when the reconstructed path starts at the
start vertex, otherwise report unreachability with no path. -/
def dijkstraFinal (g : Graph) (start e : Str) (dist : List (Str × ENum))
    (prev : List (Str × Option Str)) : Step :=
  let path := reconstruct (g.nodes.length + 2) prev (some e) []
  if path.head? = some start then
    { tag := .pathFound, path := some path,
      totalWeight := (alGet? dist e).getD .undef, highlightNodes := some path,
      msg := .shortestPath path ((alGet? dist e).getD .undef) }
  else
    { tag := .pathFound, msg := .noPath start e }

/-- The Dijkstra producer (start and target uppercased, as in the source). -/
def dijkstra (g : Graph) (startId endId : Str) : List Step :=
  (dijkstraCore g (toUpperS startId)).1 ++
    [dijkstraFinal g (toUpperS startId) (toUpperS endId)
      (dijkstraCore g (toUpperS startId)).2.1 (dijkstraCore g (toUpperS startId)).2.2.1]

/-- Ranking invariant of the predecessor table: every stored predecessor is
visited, strictly earlier in visited order than its successor.  It makes
the backward walk terminate within `visited + 1` hops. -/
def PrevOK (vis : List Str) (prev : List (Str × Option Str)) : Prop :=
  ∀ v u, alGet? prev v = some (some u) → u ∈ vis ∧ idxOf vis u < idxOf vis v

/-! Ford-Fulkerson maximum flow (Edmonds-Karp style augmenting search). -/

/-- The residual capacity table: an insertion-ordered map from vertex to an
insertion-ordered map of capacities. -/
abbrev Cap := List (Str × List (Str × Int))

/-- Build the residual table: one row per vertex, then one entry per stored
edge in its `from` to `to` direction only (also for undirected graphs).
The source's non-null assertion would throw on an edge whose tail is not a
vertex; that case (unreachable on well-formed graphs) leaves the table
unchanged here. -/
def capInit (g : Graph) : Cap :=
  g.edges.foldl
    (fun m e =>
      match alGet? m e.efrom with
      | some row => alSet m e.efrom (alSet row e.eto e.weight)
      | none => m)
    (g.nodes.foldl (fun m n => alSet m n.id []) [])

/-- Pair capacity lookup (`capacity.get(a)!.get(b)!`). -/
def pairCap (cap : Cap) (a b : Str) : Option Int :=
  match alGet? cap a with
  | some row => alGet? row b
  | none => none

/-- Inner keys of the table, with multiplicity: the universe from which the
augmenting-path search can ever enqueue a vertex. -/
def capUniv (cap : Cap) : List Str :=
  (cap.map (fun r => r.2.map Prod.fst)).flatten

/-- Unvisited-universe count: the decreasing part of the search measure. -/
def fpcnt (cap : Cap) (vis : List Str) : Nat :=
  (capUniv cap).countP (fun x => !(x ∈ vis : Bool))

/-- Fuel for one augmenting-path search (shown never to be exhausted). -/
def fpFuel (cap : Cap) : Nat := (capUniv cap).length + 2

/-- Result of one augmenting-path search: the emitted steps plus the path
when the sink was reached.  `out` marks fuel exhaustion, which `fpFuel`
never triggers. -/
inductive FPRes where
  | out : FPRes
  | found : List Step → List Str → FPRes
  | nopath : List Step → FPRes
deriving DecidableEq, Repr

/-- One exploration move over a row entry: enqueue an unvisited neighbor
with positive residual capacity, emitting an edge-visit step. -/
def fpExplore (current : Str) (path : List Str)
    (acc : List Step × List (Str × List Str) × List Str) (p : Str × Int) :
    List Step × List (Str × List Str) × List Str :=
  if p.1 ∉ acc.2.2 ∧ 0 < p.2 then
    (acc.1 ++ [{ tag := .edgeVisit, edgeFrom := some current, edgeTo := some p.1,
                 value := .fin p.2, msg := .foundEdgeF current p.1 p.2 }],
     acc.2.1 ++ [(p.1, path ++ [p.1])], acc.2.2 ++ [p.1])
  else acc

/-- The breadth-first augmenting-path search over positive residuals.  A
missing row (where the source's non-null assertion would throw) is treated
as empty; rows exist for every reachable queue entry on well-formed
graphs. -/
def findPath (cap : Cap) (sink : Str) :
    Nat → List (Str × List Str) → List Str → FPRes
  | 0, _, _ => .out
  | _ + 1, [], _ => .nopath []
  | fuel + 1, (current, path) :: rest, visited =>
    let st1 : Step := { tag := .nodeCurrent, nodeId := some current,
                        highlightNodes := some visited, msg := .findingAug path }
    if current = sink then .found [st1] path
    else
      let row := (alGet? cap current).getD []
      let r := row.foldl (fpExplore current path) ([], rest, visited)
      match findPath cap sink fuel r.2.1 r.2.2 with
      | .out => .out
      | .found ss p => .found (st1 :: r.1 ++ ss) p
      | .nopath ss => .nopath (st1 :: r.1 ++ ss)

/-- Bottleneck of a path: `Math.min` over consecutive pair capacities,
starting from Infinity. -/
def minCapOf (cap : Cap) (path : List Str) : ENum :=
  (path.zip path.tail).foldl (fun m pr => ENum.minCap m (pairCap cap pr.1 pr.2)) .inf

/-- One forward/backward residual update for a consecutive path pair (the
reverse entry is created at 0 first when absent, exactly as the source
does; the net effect is the `getD 0` below). -/
def augmentPair (mc : Int) (cap : Cap) (pr : Str × Str) : Cap :=
  let cap1 :=
    match alGet? cap pr.1 with
    | some row => alSet cap pr.1 (alSet row pr.2 ((alGet? row pr.2).getD 0 - mc))
    | none => cap
  match alGet? cap1 pr.2 with
  | some row => alSet cap1 pr.2 (alSet row pr.1 ((alGet? row pr.1).getD 0 + mc))
  | none => cap1

/-- Update the residual table along an augmenting path.  The bottleneck is
finite whenever the path has at least one consecutive pair; otherwise the
pair list is empty and the source's update loop does nothing, so the
non-finite cases leave the table unchanged, exactly as the source does. -/
def augmentAll (cap : Cap) (path : List Str) (mc : ENum) : Cap :=
  match mc with
  | .fin m => (path.zip path.tail).foldl (augmentPair m) cap
  | _ => cap

/-- The augmenting loop, fuel-indexed: `none` means the fuel ran out before
the loop exited on its own (the C5 theorem shows sufficient fuel exists
when source and sink are distinct vertices of a well-formed graph, and the
C5 counterexample that no fuel suffices when source equals sink). -/
def ffLoop (source sink : Str) : Nat → Cap → ENum → Option (List Step)
  | 0, _, _ => none
  | fuel + 1, cap, maxFlow =>
    match findPath cap sink (fpFuel cap) [(source, [source])] [source] with
    | .out => none
    | .nopath ss =>
      some (ss ++ [{ tag := .nodeComplete, totalWeight := maxFlow,
                     msg := .flowDone source sink maxFlow }])
    | .found ss path =>
      if path.isEmpty then
        some (ss ++ [{ tag := .nodeComplete, totalWeight := maxFlow,
                       msg := .flowDone source sink maxFlow }])
      else
        let mc := minCapOf cap path
        let cap' := augmentAll cap path mc
        let maxFlow' := ENum.add maxFlow mc
        match ffLoop source sink fuel cap' maxFlow' with
        | none => none
        | some ss2 =>
          some (ss ++ [{ tag := .flowUpdate, path := some path, value := mc,
                         totalWeight := maxFlow',
                         msg := .augmented path mc maxFlow' }] ++ ss2)

/-- The Ford-Fulkerson producer, with the augmenting loop's iteration count
made explicit as fuel. -/
def fordFulkerson (g : Graph) (sourceId sinkId : Str) (fuel : Nat) :
    Option (List Step) :=
  ffLoop (toUpperS sourceId) (toUpperS sinkId) fuel (capInit g) (.fin 0)

/-- Row sum of nonnegative parts: the residual capacity mass of one row. -/
def rowSum (row : List (Str × Int)) : Nat := (row.map (fun p => p.2.toNat)).sum

/-- Total residual capacity leaving a vertex. -/
def outSum (cap : Cap) (s : Str) : Nat :=
  match alGet? cap s with
  | some row => rowSum row
  | none => 0

/-- Every consecutive pair of the path has a present, strictly positive
residual entry. -/
def pairsPos (cap : Cap) (p : List Str) : Prop :=
  ∀ pr ∈ p.zip p.tail, ∃ c, pairCap cap pr.1 pr.2 = some c ∧ 0 < c

/-- Queue invariant of the augmenting search: each entry carries a
duplicate-free path from the start to its vertex along positive residuals,
inside the visited set and inside the table's key set. -/
def QInv (cap : Cap) (s0 : Str) (visited : List Str)
    (q : List (Str × List Str)) : Prop :=
  ∀ e ∈ q, e.2.head? = some s0 ∧ e.2.getLast? = some e.1 ∧ e.2.Nodup ∧
    pairsPos cap e.2 ∧ (∀ y ∈ e.2, y ∈ visited) ∧ (∀ y ∈ e.2, y ∈ alKeys cap)

/-- The augmenting-path search emits only node-current and edge-visit
steps. -/
def searchTags (ss : List Step) : Prop :=
  ∀ st ∈ ss, st.tag = .nodeCurrent ∨ st.tag = .edgeVisit

/-- Postcondition of a successful augmenting-path search: search-only step
tags, and a duplicate-free source-to-sink path along present, strictly
positive residual entries whose vertices are table keys. -/
def FoundPost (cap : Cap) (s0 sink : Str) (ss : List Step) (p : List Str) : Prop :=
  searchTags ss ∧ p.head? = some s0 ∧ p.getLast? = some sink ∧ p.Nodup ∧
    pairsPos cap p ∧ (∀ y ∈ p, y ∈ alKeys cap)

/-! Eulerian path/circuit construction (Hierholzer) and its delegating
variant (Fleury). -/

/-- Edge record with a used flag — the trace-local copy the producer makes
of the edge list. -/
structure EdgeU where
  ufrom : Str
  uto : Str
  used : Bool
deriving DecidableEq, Repr

/-- First unused edge touching a vertex (outgoing for directed graphs,
either endpoint for undirected), scanning edge insertion order and checking
the `from` endpoint before the `to` endpoint at each index; returns the
other endpoint and the edge index. -/
def getUnusedEdge (directed : Bool) : List EdgeU → Str → Nat → Option (Str × Nat)
  | [], _, _ => none
  | e :: es, x, i =>
    if !e.used && (e.ufrom = x : Bool) then some (e.uto, i)
    else if !directed && !e.used && (e.uto = x : Bool) then some (e.ufrom, i)
    else getUnusedEdge directed es x (i + 1)

/-- Mark the edge at an index as used. -/
def markUsed : List EdgeU → Nat → List EdgeU
  | [], _ => []
  | e :: es, 0 => { e with used := true } :: es
  | e :: es, i + 1 => e :: markUsed es i

/-- JavaScript `undefined` as the start vertex of an empty graph: a
sentinel that cannot collide with a normalized identifier (normalized ids
contain no lowercase letters). -/
def undefinedStr : Str := ['u', 'n', 'd', 'e', 'f', 'i', 'n', 'e', 'd']

/-- Degree table: per edge, increment the `from` endpoint, plus the `to`
endpoint only when the graph is undirected (the source's known asymmetry
for directed graphs). -/
def hierDegrees (g : Graph) : List (Str × Int) :=
  g.edges.foldl
    (fun m e =>
      let m1 := alSet m e.efrom ((alGet? m e.efrom).getD 0 + 1)
      if !g.directed then alSet m1 e.eto ((alGet? m1 e.eto).getD 0 + 1) else m1)
    (g.nodes.foldl (fun m n => alSet m n.id 0) [])

/-- Start vertex: the first odd-degree entry in degree-map insertion order,
else the first vertex by insertion order, else the `undefined` sentinel. -/
def hierStart (g : Graph) : Str :=
  match (hierDegrees g).find? (fun p => (p.2 % 2 = 1 : Bool)) with
  | some p => p.1
  | none =>
    match g.nodes.head? with
    | some n => n.id
    | none => undefinedStr

/-- Main loop: inspect the stack top; traverse an unused incident edge if
any, else pop the vertex onto the completed path.  Every iteration either
consumes an unused edge (pushing once) or pops, so `2 * edges + 2` fuel is
never exhausted. -/
def hierLoop (directed : Bool) : Nat → List EdgeU → List Str → List Str →
    List Step × List Str
  | 0, _, _, path => ([], path)
  | fuel + 1, edges, stack, path =>
    match stack.getLast? with
    | none => ([], path)
    | some current =>
      let st1 : Step := { tag := .nodeCurrent, nodeId := some current,
                          path := some path, msg := .topIs current stack }
      match getUnusedEdge directed edges current 0 with
      | some (to_, i) =>
        let r := hierLoop directed fuel (markUsed edges i) (stack ++ [to_]) path
        (st1 :: { tag := .edgeVisit, edgeFrom := some current, edgeTo := some to_,
                  path := some path, msg := .visitEdgeH current to_ } :: r.1, r.2)
      | none =>
        let path' := path ++ [current]
        let r := hierLoop directed fuel edges stack.dropLast path'
        (st1 :: { tag := .eulerPath, nodeId := some current, path := some path',
                  msg := .addedEuler current path'.reverse } :: r.1, r.2)

/-- The Hierholzer producer. -/
def hierholzer (g : Graph) : List Step :=
  let edges := g.edges.map (fun e =>
    { ufrom := e.efrom, uto := e.eto, used := false : EdgeU })
  let r := hierLoop g.directed (2 * g.edges.length + 2) edges [hierStart g] []
  r.1 ++ [{ tag := .nodeComplete, path := some r.2.reverse,
            msg := .eulerDone r.2.reverse }]

/-- The alternate Euler producer: a deliberate full delegation to the
Hierholzer producer, with no bridge-avoidance logic. -/
def fleury (g : Graph) : List Step :=
  hierholzer g

/-- The sample graph of the spec's testable properties: vertices A, B, C, D
inserted in that order, edges A-B(1), A-C(2), B-D(3), C-D(1), undirected. -/
def sampleG : Graph :=
  ((((((((emptyGraph.addNode ['A']).2.addNode ['B']).2.addNode ['C']).2.addNode
      ['D']).2.addEdge ['A'] ['B'] 1).addEdge ['A'] ['C'] 2).addEdge ['B'] ['D'] 3).addEdge
      ['C'] ['D'] 1)

/-!
Theorems.  First the character-level lemmas about identifier normalization,
then the association list laws, then the per-claim results.
-/

theorem toNat_ofNat_valid (m : Nat) (h : m < 0xd800) : (Char.ofNat m).toNat = m := by
  rw [Char.ofNat, dif_pos (Or.inl h)]
  simp only [Char.ofNatAux, Char.toNat, UInt32.ofNat']
  simp [UInt32.toNat]

theorem ws_toNat (d : Char) (hd : d.isWhitespace = true) :
    d.toNat = 32 ∨ d.toNat = 9 ∨ d.toNat = 13 ∨ d.toNat = 10 := by
  simp [Char.isWhitespace] at hd
  rcases hd with ((h | h) | h) | h <;> subst h <;> decide

theorem upper_ws (c : Char) : (Char.toUpper c).isWhitespace = c.isWhitespace := by
  unfold Char.toUpper
  by_cases h : c.toNat ≥ 97 ∧ c.toNat ≤ 122
  · rw [if_pos h]
    have h2 : (Char.ofNat (c.toNat - 32)).toNat = c.toNat - 32 := by
      apply toNat_ofNat_valid; omega
    have l1 : (Char.ofNat (c.toNat - 32)).isWhitespace = false := by
      by_contra hc
      simp at hc
      have := ws_toNat _ hc
      omega
    have l2 : c.isWhitespace = false := by
      by_contra hc
      simp at hc
      have := ws_toNat _ hc
      omega
    rw [l1, l2]
  · rw [if_neg h]

theorem upper_idem (c : Char) : Char.toUpper (Char.toUpper c) = Char.toUpper c := by
  unfold Char.toUpper
  by_cases h : c.toNat ≥ 97 ∧ c.toNat ≤ 122
  · rw [if_pos h]
    have h2 : (Char.ofNat (c.toNat - 32)).toNat = c.toNat - 32 := by
      apply toNat_ofNat_valid; omega
    rw [if_neg]
    rw [h2]; omega
  · rw [if_neg h, if_neg h]

theorem toUpperS_idem (s : Str) : toUpperS (toUpperS s) = toUpperS s := by
  induction s with
  | nil => rfl
  | cons c cs ih =>
    simp only [toUpperS, List.map_cons] at ih ⊢
    rw [upper_idem, ih]

theorem dropWhile_ws_map_upper (s : Str) :
    (s.map Char.toUpper).dropWhile Char.isWhitespace =
      (s.dropWhile Char.isWhitespace).map Char.toUpper := by
  induction s with
  | nil => rfl
  | cons c cs ih =>
    by_cases h : c.isWhitespace = true
    · simp [List.dropWhile, upper_ws, h, ih]
    · simp only [Bool.not_eq_true] at h
      simp [List.dropWhile, upper_ws, h]

theorem trimS_toUpperS (s : Str) : trimS (toUpperS s) = toUpperS (trimS s) := by
  simp only [trimS, toUpperS]
  rw [dropWhile_ws_map_upper]
  rw [← List.map_reverse, dropWhile_ws_map_upper, List.map_reverse]

/-- Normalizing after uppercasing is the same as normalizing directly. -/
theorem normalizeId_toUpperS (s : Str) : normalizeId (toUpperS s) = normalizeId s := by
  simp [normalizeId, trimS_toUpperS, toUpperS_idem]

theorem alGet?_alSet_self {α : Type} (m : List (Str × α)) (k : Str) (v : α) :
    alGet? (alSet m k v) k = some v := by
  induction m with
  | nil => simp [alSet, alGet?]
  | cons p ps ih =>
    by_cases hp : p.1 = k
    · simp [alSet, alGet?, hp]
    · simp [alSet, alGet?, hp, ih]

theorem alGet?_alSet_ne {α : Type} (m : List (Str × α)) (k k' : Str) (v : α)
    (h : k' ≠ k) : alGet? (alSet m k v) k' = alGet? m k' := by
  have h' : ¬ k = k' := fun hc => h hc.symm
  induction m with
  | nil => simp [alSet, alGet?, h']
  | cons p ps ih =>
    by_cases hp : p.1 = k
    · simp only [alSet, if_pos hp]
      rw [alGet?, alGet?, hp]
      simp [h']
    · simp only [alSet, if_neg hp]
      rw [alGet?, alGet?]
      by_cases hq : p.1 = k'
      · simp [hq]
      · simp [hq, ih]

theorem alKeys_alSet {α : Type} (m : List (Str × α)) (k : Str) (v : α) :
    alKeys (alSet m k v) = if alHas m k then alKeys m else alKeys m ++ [k] := by
  induction m with
  | nil => simp [alSet, alHas, alKeys]
  | cons p ps ih =>
    by_cases hp : p.1 = k
    · simp [alSet, alHas, alKeys, hp]
    · simp only [alSet, if_neg hp, alHas, alKeys, List.map_cons]
      simp only [alKeys] at ih
      rw [ih]
      by_cases hh : alHas ps k = true
      · simp [hh, hp]
      · simp only [Bool.not_eq_true] at hh
        simp [hh, hp]

theorem alHas_iff {α : Type} (m : List (Str × α)) (k : Str) :
    alHas m k = true ↔ k ∈ alKeys m := by
  induction m with
  | nil => simp [alHas, alKeys]
  | cons p ps ih =>
    simp only [alHas, alKeys, List.map_cons, List.mem_cons, Bool.or_eq_true,
      decide_eq_true_eq]
    rw [ih]
    constructor
    · rintro (h | h)
      · exact Or.inl h.symm
      · exact Or.inr h
    · rintro (h | h)
      · exact Or.inl h.symm
      · exact Or.inr h

theorem alGet?_isSome_iff {α : Type} (m : List (Str × α)) (k : Str) :
    (alGet? m k).isSome = true ↔ k ∈ alKeys m := by
  induction m with
  | nil => simp [alGet?, alKeys]
  | cons p ps ih =>
    simp only [alGet?, alKeys, List.map_cons, List.mem_cons]
    by_cases hp : p.1 = k
    · rw [if_pos hp]
      simp only [Option.isSome_some, true_iff]
      exact Or.inl hp.symm
    · rw [if_neg hp, ih]
      simp only [alKeys]
      constructor
      · intro h; exact Or.inr h
      · rintro (h | h)
        · exact absurd h.symm hp
        · exact h

/-! Claims about the graph model: C7 (duplicate vertex insertion),
C8 (edge cascade on vertex deletion), C9 (rename collision). -/

/-- C7: for every graph state and identifier whose normalized form already
names an existing vertex, `addNode` returns the `null` sentinel and leaves
both the vertex and the edge collection unchanged (the whole graph value is
returned untouched). -/
theorem C7_addNode_duplicate (g : Graph) (id : Str)
    (h : g.hasNode (normalizeId id) = true) :
    g.addNode id = (none, g) := by
  unfold Graph.addNode
  simp [h]

/-- Witness for C7, realizing the claim's concrete scenario: adding vertex
"a" and then "A" yields exactly one vertex with identifier "A", and the
second call returns the sentinel. -/
theorem C7_addNode_duplicate_witness :
    ((emptyGraph.addNode ['a']).2.hasNode (normalizeId ['A']) = true ∧
      (emptyGraph.addNode ['a']).2.addNode ['A'] = (none, (emptyGraph.addNode ['a']).2)) ∧
    (emptyGraph.addNode ['a']).2.nodes.map Node.id = [['A']] := by
  refine ⟨⟨by decide, C7_addNode_duplicate _ _ (by decide)⟩, by decide⟩

/-- C8: after `deleteNode v`, no remaining edge has the normalized form of
`v` as either endpoint — edge removal cascades with vertex deletion. -/
theorem C8_deleteNode_cascade (g : Graph) (v : Str) (e : Edge)
    (h : e ∈ (g.deleteNode v).edges) :
    e.efrom ≠ normalizeId v ∧ e.eto ≠ normalizeId v := by
  unfold Graph.deleteNode at h
  simp only [List.mem_filter, Bool.and_eq_true, Bool.not_eq_true'] at h
  obtain ⟨-, h1, h2⟩ := h
  constructor
  · intro hc; rw [hc] at h1; simp at h1
  · intro hc; rw [hc] at h2; simp at h2

/-- Witness for C8: deleting A from the graph with edges A-B and B-C leaves
only the edge B-C, which touches neither endpoint of the deleted vertex. -/
theorem C8_deleteNode_cascade_witness :
    ({ efrom := ['B'], eto := ['C'], weight := 1, edirected := false } : Edge) ∈
        (((emptyGraph.addEdge ['A'] ['B'] 1).addEdge ['B'] ['C'] 1).deleteNode ['A']).edges ∧
    (({ efrom := ['B'], eto := ['C'], weight := 1, edirected := false } : Edge).efrom ≠
        normalizeId ['A'] ∧
      ({ efrom := ['B'], eto := ['C'], weight := 1, edirected := false } : Edge).eto ≠
        normalizeId ['A']) := by
  constructor
  · decide
  · exact C8_deleteNode_cascade ((emptyGraph.addEdge ['A'] ['B'] 1).addEdge ['B'] ['C'] 1)
      ['A'] { efrom := ['B'], eto := ['C'], weight := 1, edirected := false } (by decide)

/-- C9 as stated is false: renaming a vertex to (a different spelling of) its
own identifier returns `true`, although the normalized new identifier names an
existing vertex — the vertex being renamed itself. -/
theorem C9_counterexample :
    (emptyGraph.addNode ['A']).2.hasNode (normalizeId ['a']) = true ∧
    ((emptyGraph.addNode ['A']).2.renameNode ['A'] ['a']).1 = true := by
  constructor <;> decide

/-- C9 amended: `renameNode old new` returns `false` and leaves the graph
unchanged whenever the normalized new identifier names an existing vertex and
differs from the normalized old identifier; when the two normalized
identifiers are equal it returns `true` and leaves the graph unchanged. -/
theorem C9_renameNode_collision (g : Graph) (oldId newId : Str) :
    (normalizeId newId ≠ normalizeId oldId →
      g.hasNode (normalizeId newId) = true →
      g.renameNode oldId newId = (false, g)) ∧
    (normalizeId oldId = normalizeId newId →
      g.renameNode oldId newId = (true, g)) := by
  constructor
  · intro hne hhas
    unfold Graph.renameNode
    rw [if_neg (fun hc => hne hc.symm), if_pos hhas]
  · intro he
    unfold Graph.renameNode
    rw [if_pos he]

/-- Witness for C9's amended statement at a concrete graph with vertices A
and B: renaming A to B collides and fails, renaming A to "a" succeeds
trivially. -/
theorem C9_renameNode_collision_witness :
    (normalizeId ['B'] ≠ normalizeId ['A'] ∧
      (emptyGraph.addNode ['A']).2.hasNode (normalizeId ['B']) = false ∧
      ((emptyGraph.addNode ['A']).2.addNode ['B']).2.renameNode ['A'] ['B'] =
        (false, ((emptyGraph.addNode ['A']).2.addNode ['B']).2)) ∧
    ((emptyGraph.addNode ['A']).2.renameNode ['A'] ['a'] =
        (true, (emptyGraph.addNode ['A']).2)) := by
  refine ⟨⟨by decide, by decide, ?_⟩, ?_⟩
  · exact (C9_renameNode_collision _ ['A'] ['B']).1 (by decide) (by decide)
  · exact (C9_renameNode_collision _ ['A'] ['a']).2 (by decide)

/-! Claim C10: bfs on an absent start vertex. -/

theorem getNeighbors_eq_nil (g : Graph) (x : Str) (hwf : g.wf)
    (h : g.hasNode (normalizeId x) = false) : g.getNeighbors x = [] := by
  unfold Graph.getNeighbors
  have hne : ∀ n ∈ g.nodes, n.id ≠ normalizeId x := by
    intro n hn hc
    unfold Graph.hasNode at h
    rw [List.any_eq_false] at h
    have := h n hn
    simp [hc] at this
  apply List.flatten_eq_nil_iff.mpr
  intro l hl
  simp only [List.mem_map] at hl
  obtain ⟨e, he, rfl⟩ := hl
  have h1 : e.efrom ≠ normalizeId x := by
    obtain ⟨⟨n, hn, hid⟩, -⟩ := hwf e he
    rw [← hid]; exact hne n hn
  have h2 : e.eto ≠ normalizeId x := by
    obtain ⟨-, n, hn, hid⟩ := hwf e he
    rw [← hid]; exact hne n hn
  rw [if_neg h1, if_neg]
  · rfl
  · simp [h2]

/-- C10 as stated is false: the two emitted steps name the uppercased start
identifier exactly as passed (the source does not trim it), which differs
from the normalized identifier when the argument carries surrounding
whitespace. -/
theorem C10_counterexample :
    ((bfs (emptyGraph.addEdge ['A'] ['B'] 1) [' ', 'e', ' ']).map Step.nodeId =
        [some [' ', 'E', ' '], some [' ', 'E', ' ']]) ∧
    normalizeId [' ', 'e', ' '] = ['E'] ∧
    ([' ', 'E', ' '] : Str) ≠ ['E'] := by
  refine ⟨by decide, by decide, by decide⟩

/-- C10 amended: for every well-formed graph and start identifier whose
normalized form is not a vertex, the bfs producer still emits a non-empty
trace: exactly one node-current and one node-complete step, both naming the
uppercased (but not trimmed) start identifier, and no edge-visit steps. -/
theorem C10_bfs_absent_start (g : Graph) (startId : Str) (hwf : g.wf)
    (h : g.hasNode (normalizeId startId) = false) :
    bfs g startId =
      [{ tag := .nodeCurrent, nodeId := some (toUpperS startId),
         highlightNodes := some [toUpperS startId], msg := .visitNode (toUpperS startId) },
       { tag := .nodeComplete, nodeId := some (toUpperS startId),
         highlightNodes := some [toUpperS startId],
         msg := .doneNode (toUpperS startId) [toUpperS startId] }] := by
  have hn : g.getNeighbors (toUpperS startId) = [] := by
    apply getNeighbors_eq_nil g _ hwf
    rw [normalizeId_toUpperS]
    exact h
  unfold bfs
  rw [show 2 * g.edges.length + 2 = (2 * g.edges.length + 1) + 1 from rfl]
  rw [bfsLoop]
  rw [hn]
  simp only [List.foldl_nil]
  rw [show 2 * g.edges.length + 1 = (2 * g.edges.length) + 1 from rfl]
  rw [bfsLoop]
  simp

/-- Witness for the amended C10 at a concrete graph (vertices A, B with edge
A-B) and the absent start identifier "e". -/
theorem C10_bfs_absent_start_witness :
    ((emptyGraph.addEdge ['A'] ['B'] 1).wf ∧
      (emptyGraph.addEdge ['A'] ['B'] 1).hasNode (normalizeId ['e']) = false) ∧
    bfs (emptyGraph.addEdge ['A'] ['B'] 1) ['e'] =
      [{ tag := .nodeCurrent, nodeId := some (toUpperS ['e']),
         highlightNodes := some [toUpperS ['e']], msg := .visitNode (toUpperS ['e']) },
       { tag := .nodeComplete, nodeId := some (toUpperS ['e']),
         highlightNodes := some [toUpperS ['e']],
         msg := .doneNode (toUpperS ['e']) [toUpperS ['e']] }] := by
  refine ⟨⟨by decide, by decide⟩,
    C10_bfs_absent_start (emptyGraph.addEdge ['A'] ['B'] 1) ['e'] (by decide) (by decide)⟩

/-! Claim C2: the tie-break order of the Prim frontier scan. -/

theorem primInner_eq (inMST : List Str) (u : Str)
    (nbs : List (Str × Int)) (acc : Option (Str × Str × Int)) :
    nbs.foldl (fun acc2 nb =>
        if nb.1 ∈ inMST then acc2 else selStep acc2 (u, nb.1, nb.2)) acc =
      (nbs.filterMap (fun nb => if nb.1 ∈ inMST then none
        else some (u, nb.1, nb.2))).foldl selStep acc := by
  induction nbs generalizing acc with
  | nil => rfl
  | cons nb nbs ih =>
    by_cases h : nb.1 ∈ inMST
    · simp only [List.foldl_cons, if_pos h, List.filterMap_cons]
      exact ih acc
    · simp only [List.foldl_cons, if_neg h, List.filterMap_cons]
      exact ih (selStep acc (u, nb.1, nb.2))

theorem primSelect_eq_crossFold (g : Graph) (inMST : List Str) :
    primSelect g inMST = (crossList g inMST).foldl selStep none := by
  unfold primSelect crossList
  rw [List.foldl_flatten, List.foldl_map]
  apply List.foldl_ext
  intro acc u _
  exact primInner_eq inMST u (g.getNeighbors u) acc

theorem foldl_selStep_some (l : List (Str × Str × Int)) (a : Str × Str × Int) :
    l.foldl selStep (some a) = some (sel1 a l) := by
  induction l generalizing a with
  | nil => rfl
  | cons e es ih =>
    simp only [List.foldl_cons, sel1, selStep]
    by_cases h : e.2.2 < a.2.2
    · rw [if_pos h, if_pos h]
      exact ih e
    · rw [if_neg h, if_neg h]
      exact ih a

theorem sel1_spec (l : List (Str × Str × Int)) : ∀ (a : Str × Str × Int),
    ∃ l1 l2, a :: l = l1 ++ sel1 a l :: l2 ∧
      (∀ b ∈ a :: l, (sel1 a l).2.2 ≤ b.2.2) ∧
      (∀ b ∈ l1, (sel1 a l).2.2 < b.2.2) := by
  induction l with
  | nil =>
    intro a
    exact ⟨[], [], rfl, by simp [sel1], by simp⟩
  | cons e es ih =>
    intro a
    by_cases h : e.2.2 < a.2.2
    · have hs : sel1 a (e :: es) = sel1 e es := by
        simp only [sel1, List.foldl_cons, if_pos h]
      obtain ⟨l1, l2, hsplit, hmin, hfirst⟩ := ih e
      refine ⟨a :: l1, l2, ?_, ?_, ?_⟩
      · rw [hs, List.cons_append, ← hsplit]
      · intro b hb
        rw [hs]
        rcases List.mem_cons.mp hb with hb | hb
        · subst hb
          have := hmin e (by simp)
          omega
        · exact hmin b hb
      · intro b hb
        rw [hs]
        rcases List.mem_cons.mp hb with hb | hb
        · subst hb
          have := hmin e (by simp)
          omega
        · exact hfirst b hb
    · have hs : sel1 a (e :: es) = sel1 a es := by
        simp only [sel1, List.foldl_cons, if_neg h]
      obtain ⟨l1, l2, hsplit, hmin, hfirst⟩ := ih a
      rcases l1 with _ | ⟨x, l1'⟩
      · simp only [List.nil_append] at hsplit
        have hsa : sel1 a es = a := by
          have := congrArg List.head? hsplit
          simp at this
          exact this.symm
        refine ⟨[], e :: es, ?_, ?_, by simp⟩
        · rw [hs, hsa]
          simp
        · intro b hb
          rw [hs, hsa]
          rcases List.mem_cons.mp hb with hb | hb
          · subst hb; omega
          · rcases List.mem_cons.mp hb with hb | hb
            · subst hb; omega
            · have := hmin b (by simp [hb])
              rw [hsa] at this
              exact this
      · rw [List.cons_append] at hsplit
        rw [List.cons.injEq] at hsplit
        obtain ⟨hx, hsplit2⟩ := hsplit
        have hfa : (sel1 a es).2.2 < a.2.2 := by
          have := hfirst x (by simp)
          rw [← hx] at this
          exact this
        have hf1 : ∀ c ∈ l1', (sel1 a es).2.2 < c.2.2 := by
          intro c hcm
          exact hfirst c (by simp [hcm])
        have hae : a.2.2 ≤ e.2.2 := by omega
        refine ⟨a :: e :: l1', l2, ?_, ?_, ?_⟩
        · rw [hs]
          conv_lhs => rw [hsplit2]
          simp [List.cons_append]
        · intro c hcm
          rw [hs]
          rcases List.mem_cons.mp hcm with hcm | hcm
          · subst hcm
            exact hmin c (by simp)
          · rcases List.mem_cons.mp hcm with hcm | hcm
            · subst hcm
              have ha := hmin a (by simp)
              omega
            · exact hmin c (by simp [hcm])
        · intro c hcm
          rw [hs]
          rcases List.mem_cons.mp hcm with hcm | hcm
          · subst hcm
            exact hfa
          · rcases List.mem_cons.mp hcm with hcm | hcm
            · subst hcm
              omega
            · exact hf1 c hcm

/-- C2 as stated is false: in the third iteration on `gPrim` the tree set
is {A, C, B} in tree-insertion order, and the weight-5 tie between edges
C-D and B-D is resolved in favor of C-D (C was added to the tree before B),
whereas a scan in graph vertex insertion order (A, B, C, D) would pick B-D. -/
theorem C2_counterexample :
    mstEdgesOf (primMST gPrim) =
      [(some ['A'], some ['C']), (some ['A'], some ['B']), (some ['C'], some ['D'])] ∧
    mstEdgesOf (primMSTClaimed gPrim) =
      [(some ['A'], some ['C']), (some ['A'], some ['B']), (some ['B'], some ['D'])] ∧
    mstEdgesOf (primMST gPrim) ≠ mstEdgesOf (primMSTClaimed gPrim) := by
  refine ⟨by decide, by decide, by decide⟩

/-- C2 amended: each iteration of the frontier loop (whose scan is
`primSelect`) selects a minimum-weight crossing edge, and on ties the first
edge found wins, where the scan enumerates inside endpoints in the order
they were added to the spanning tree (not the order they were added to the
graph) and, per inside endpoint, edges in edge insertion order — i.e. the
selected edge is the first entry of `crossList` achieving the minimum
weight, and nothing is selected exactly when no crossing edge exists. -/
theorem C2_prim_selection (g : Graph) (inMST : List Str) :
    (primSelect g inMST = none ↔ crossList g inMST = []) ∧
    (∀ e, primSelect g inMST = some e →
      ∃ l1 l2, crossList g inMST = l1 ++ e :: l2 ∧
        (∀ b ∈ crossList g inMST, e.2.2 ≤ b.2.2) ∧
        (∀ b ∈ l1, e.2.2 < b.2.2)) := by
  rw [primSelect_eq_crossFold]
  rcases hc : crossList g inMST with _ | ⟨x, xs⟩
  · refine ⟨by simp, ?_⟩
    intro e he
    simp at he
  · rw [List.foldl_cons, show selStep none x = some x from rfl, foldl_selStep_some]
    refine ⟨by simp, ?_⟩
    intro e he
    have hee : sel1 x xs = e := Option.some.inj he
    subst hee
    exact sel1_spec xs x

/-- Witness for the amended C2 at the concrete third iteration on `gPrim`:
with tree set [A, C, B] the scan returns edge C-D of weight 5, which is the
first minimum-weight entry of the crossing list. -/
theorem C2_prim_selection_witness :
    primSelect gPrim [['A'], ['C'], ['B']] = some (['C'], ['D'], 5) ∧
    (∃ l1 l2, crossList gPrim [['A'], ['C'], ['B']] = l1 ++ (['C'], ['D'], 5) :: l2 ∧
      (∀ b ∈ crossList gPrim [['A'], ['C'], ['B']], (5 : Int) ≤ b.2.2) ∧
      (∀ b ∈ l1, (5 : Int) < b.2.2)) := by
  refine ⟨by decide, (C2_prim_selection gPrim [['A'], ['C'], ['B']]).2 _ (by decide)⟩

/-! Supporting lemmas for the bipartite claim. -/

theorem alGet?_alSet_isSome {α : Type} (m : List (Str × α)) (k : Str) (v : α)
    (x : Str) (h : (alGet? m x).isSome = true) :
    (alGet? (alSet m k v) x).isSome = true := by
  by_cases hx : x = k
  · subst hx
    rw [alGet?_alSet_self]
    rfl
  · rw [alGet?_alSet_ne _ _ _ _ hx]
    exact h

theorem countP_lt_of_witness {α : Type} (l : List α) (p p' : α → Bool)
    (hmono : ∀ x, p' x = true → p x = true) (y : α) (hy : y ∈ l)
    (hpy : p y = true) (hpy' : p' y = false) :
    l.countP p' + 1 ≤ l.countP p := by
  induction l with
  | nil => simp at hy
  | cons a as ih =>
    have hm : as.countP p' ≤ as.countP p :=
      List.countP_mono_left (fun x _ hx => hmono x hx)
    rcases List.mem_cons.mp hy with h | h
    · subst h
      rw [List.countP_cons, List.countP_cons, hpy, hpy']
      simp
      omega
    · have hrec := ih h
      rw [List.countP_cons, List.countP_cons]
      by_cases hpa : p a = true
      · rw [hpa]
        by_cases hpa' : p' a = true
        · rw [hpa']
          simp
          omega
        · simp only [Bool.not_eq_true] at hpa'
          rw [hpa']
          simp
          omega
      · have hpa' : p' a = false := by
          by_contra hc
          simp at hc
          exact hpa (hmono a hc)
        simp only [Bool.not_eq_true] at hpa
        rw [hpa, hpa']
        simpa using hrec

theorem uncnt_alSet_lt (g : Graph) (col : List (Str × Int)) (k : Str) (v : Int)
    (hk : k ∈ bipUniv g) (hu : (alGet? col k).isSome = false) :
    uncnt g (alSet col k v) + 1 ≤ uncnt g col := by
  unfold uncnt
  apply countP_lt_of_witness _ _ _ ?_ k hk ?_ ?_
  · intro x hx
    by_cases hxk : x = k
    · subst hxk
      rw [alGet?_alSet_self] at hx
      simp at hx
    · rw [alGet?_alSet_ne _ _ _ _ hxk] at hx
      exact hx
  · simp [hu]
  · simp [alGet?_alSet_self]

theorem getNeighbors_subset_univ (g : Graph) (u : Str) :
    ∀ p ∈ g.getNeighbors u, p.1 ∈ bipUniv g := by
  intro p hp
  unfold Graph.getNeighbors at hp
  rw [List.mem_flatten] at hp
  obtain ⟨l, hl, hpl⟩ := hp
  rw [List.mem_map] at hl
  obtain ⟨e, he, rfl⟩ := hl
  unfold bipUniv
  rw [List.mem_flatten]
  refine ⟨[e.efrom, e.eto], List.mem_map_of_mem _ he, ?_⟩
  rcases List.mem_append.mp hpl with h | h
  · by_cases hc : e.efrom = normalizeId u
    · rw [if_pos hc] at h
      simp at h
      rw [h]
      simp
    · rw [if_neg hc] at h
      simp at h
  · by_cases hc : (!g.directed && (e.eto = normalizeId u : Bool)) = true
    · rw [if_pos hc] at h
      simp at h
      rw [h]
      simp
    · rw [if_neg hc] at h
      simp at h

theorem bipUniv_length (g : Graph) : (bipUniv g).length = 2 * g.edges.length := by
  unfold bipUniv
  suffices h : ∀ es : List Edge,
      ((es.map (fun e => [e.efrom, e.eto])).flatten).length = 2 * es.length by
    exact h g.edges
  intro es
  induction es with
  | nil => rfl
  | cons e es ih =>
    simp only [List.map_cons, List.flatten_cons, List.length_append, ih,
      List.length_cons]
    simp
    omega

theorem bipNb_col_extend (current : Str) (cc : Int) (nbs : List (Str × Int)) :
    ∀ (col : List (Str × Int)) (q : List Str) (k : Str) (c : Int),
      alGet? col k = some c →
      alGet? (bipNb current cc nbs col q).2.1 k = some c := by
  induction nbs with
  | nil => intro col q k c h; exact h
  | cons nb nbs ih =>
    intro col q k c h
    rw [bipNb]
    rcases hg : alGet? col nb.1 with _ | c0
    · dsimp only
      apply ih
      have hk : k ≠ nb.1 := by
        intro hc
        subst hc
        rw [h] at hg
        exact Option.noConfusion hg
      rw [alGet?_alSet_ne _ _ _ _ hk]
      exact h
    · dsimp only
      by_cases hc0 : c0 = cc
      · rw [if_pos hc0]
        exact h
      · rw [if_neg hc0]
        exact ih col q k c h

theorem bipNb_col_values (current : Str) (cc : Int) (hcc : cc = 0 ∨ cc = 1)
    (nbs : List (Str × Int)) :
    ∀ (col : List (Str × Int)) (q : List Str),
      (∀ k c, alGet? col k = some c → c = 0 ∨ c = 1) →
      ∀ k c, alGet? (bipNb current cc nbs col q).2.1 k = some c → c = 0 ∨ c = 1 := by
  induction nbs with
  | nil => intro col q hv k c h; exact hv k c h
  | cons nb nbs ih =>
    intro col q hv k c h
    rcases hg : alGet? col nb.1 with _ | c0
    · rw [bipNb, hg] at h
      dsimp only at h
      refine ih _ _ ?_ k c h
      intro k' c' h'
      by_cases hk : k' = nb.1
      · subst hk
        rw [alGet?_alSet_self] at h'
        have : 1 - cc = c' := Option.some.inj h'
        rcases hcc with hcc | hcc <;> omega
      · rw [alGet?_alSet_ne _ _ _ _ hk] at h'
        exact hv k' c' h'
    · rw [bipNb, hg] at h
      dsimp only at h
      by_cases hc0 : c0 = cc
      · rw [if_pos hc0] at h
        exact hv k c h
      · rw [if_neg hc0] at h
        exact ih col q hv k c h

theorem bipNb_queue_colored (current : Str) (cc : Int) (nbs : List (Str × Int)) :
    ∀ (col : List (Str × Int)) (q : List Str),
      (∀ x ∈ q, (alGet? col x).isSome = true) →
      ∀ x ∈ (bipNb current cc nbs col q).2.2.1,
        (alGet? (bipNb current cc nbs col q).2.1 x).isSome = true := by
  induction nbs with
  | nil => intro col q hq x hx; exact hq x hx
  | cons nb nbs ih =>
    intro col q hq x hx
    rcases hg : alGet? col nb.1 with _ | c0
    · rw [bipNb, hg] at hx ⊢
      dsimp only at hx ⊢
      refine ih _ _ ?_ x hx
      intro y hy
      rcases List.mem_append.mp hy with hy | hy
      · exact alGet?_alSet_isSome _ _ _ _ (hq y hy)
      · simp at hy
        subst hy
        rw [alGet?_alSet_self]
        rfl
    · rw [bipNb, hg] at hx ⊢
      dsimp only at hx ⊢
      by_cases hc0 : c0 = cc
      · rw [if_pos hc0] at hx ⊢
        exact hq x hx
      · rw [if_neg hc0] at hx ⊢
        exact ih col q hq x hx

theorem bipNb_steps_stop (current : Str) (cc : Int) (nbs : List (Str × Int)) :
    ∀ (col : List (Str × Int)) (q : List Str),
      (bipNb current cc nbs col q).2.2.2 = true →
      ∃ pre colx u v, (bipNb current cc nbs col q).1 =
          pre ++ [{ tag := .partition, partition := some colx,
                    msg := .notBipartite u v }] ∧
        ∀ s ∈ pre, s.tag ≠ Tag.partition := by
  induction nbs with
  | nil => intro col q h; simp [bipNb] at h
  | cons nb nbs ih =>
    intro col q h
    rcases hg : alGet? col nb.1 with _ | c0
    · rw [bipNb, hg] at h ⊢
      dsimp only at h ⊢
      obtain ⟨pre, colx, u, v, hsplit, hpre⟩ := ih _ _ h
      refine ⟨{ tag := .edgeVisit, edgeFrom := some current, edgeTo := some nb.1,
                partition := some (alSet col nb.1 (1 - cc)),
                msg := .visitEdgeColor nb.1 (1 - cc) } :: pre, colx, u, v, ?_, ?_⟩
      · rw [List.cons_append, ← hsplit]
      · intro s hs
        rcases List.mem_cons.mp hs with hs | hs
        · subst hs; simp
        · exact hpre s hs
    · rw [bipNb, hg] at h ⊢
      dsimp only at h ⊢
      by_cases hc0 : c0 = cc
      · rw [if_pos hc0]
        exact ⟨[], col, current, nb.1, by simp, by simp⟩
      · rw [if_neg hc0] at h ⊢
        exact ih col q h

theorem bipNb_steps_nostop (current : Str) (cc : Int) (nbs : List (Str × Int)) :
    ∀ (col : List (Str × Int)) (q : List Str),
      (bipNb current cc nbs col q).2.2.2 = false →
      ∀ s ∈ (bipNb current cc nbs col q).1, s.tag ≠ Tag.partition := by
  induction nbs with
  | nil => intro col q _ s hs; simp [bipNb] at hs
  | cons nb nbs ih =>
    intro col q h s hs
    rcases hg : alGet? col nb.1 with _ | c0
    · rw [bipNb, hg] at h hs
      dsimp only at h hs
      rcases List.mem_cons.mp hs with hs | hs
      · subst hs; simp
      · exact ih _ _ h s hs
    · rw [bipNb, hg] at h hs
      dsimp only at h hs
      by_cases hc0 : c0 = cc
      · rw [if_pos hc0] at h
        simp at h
      · rw [if_neg hc0] at h hs
        exact ih col q h s hs

theorem bipNb_measure (g : Graph) (current : Str) (cc : Int)
    (nbs : List (Str × Int)) :
    ∀ (col : List (Str × Int)) (q : List Str),
      (∀ p ∈ nbs, p.1 ∈ bipUniv g) →
      (bipNb current cc nbs col q).2.2.2 = false →
      (bipNb current cc nbs col q).2.2.1.length +
          uncnt g (bipNb current cc nbs col q).2.1 ≤
        q.length + uncnt g col := by
  induction nbs with
  | nil => intro col q _ _; simp [bipNb]
  | cons nb nbs ih =>
    intro col q hnbs h
    rcases hg : alGet? col nb.1 with _ | c0
    · rw [bipNb, hg] at h ⊢
      dsimp only at h ⊢
      have hrec := ih (alSet col nb.1 (1 - cc)) (q ++ [nb.1])
        (fun p hp => hnbs p (List.mem_cons_of_mem _ hp)) h
      have hdec := uncnt_alSet_lt g col nb.1 (1 - cc)
        (hnbs nb (List.mem_cons_self _ _)) (by rw [hg]; rfl)
      rw [List.length_append] at hrec
      simp only [List.length_cons, List.length_nil] at hrec
      omega
    · rw [bipNb, hg] at h ⊢
      dsimp only at h ⊢
      by_cases hc0 : c0 = cc
      · rw [if_pos hc0] at h
        simp at h
      · rw [if_neg hc0] at h ⊢
        exact ih col q (fun p hp => hnbs p (List.mem_cons_of_mem _ hp)) h

theorem bipLoop_stable (g : Graph) : ∀ (f1 f2 : Nat) (q : List Str)
    (col : List (Str × Int)),
    q.length + uncnt g col < f1 → q.length + uncnt g col < f2 →
    bipLoop g f1 q col = bipLoop g f2 q col := by
  intro f1
  induction f1 with
  | zero => intro f2 q col h1 _; omega
  | succ f1 ih =>
    intro f2 q col h1 h2
    obtain ⟨b, rfl⟩ : ∃ b, f2 = b + 1 := ⟨f2 - 1, by omega⟩
    rcases q with _ | ⟨current, rest⟩
    · rw [bipLoop, bipLoop]
    · rw [bipLoop, bipLoop]
      dsimp only
      by_cases hstop : (bipNb current ((alGet? col current).getD 0)
          (g.getNeighbors current) col rest).2.2.2 = true
      · rw [if_pos hstop, if_pos hstop]
      · rw [if_neg hstop, if_neg hstop]
        simp only [Bool.not_eq_true] at hstop
        have hm := bipNb_measure g current ((alGet? col current).getD 0)
          (g.getNeighbors current) col rest
          (getNeighbors_subset_univ g current) hstop
        simp only [List.length_cons] at h1 h2
        have heq := ih b
          (bipNb current ((alGet? col current).getD 0)
            (g.getNeighbors current) col rest).2.2.1
          (bipNb current ((alGet? col current).getD 0)
            (g.getNeighbors current) col rest).2.1
          (by omega) (by omega)
        rw [heq]

theorem bipLoop_seed_stable (g : Graph) (s : Str) (col : List (Str × Int)) (k : Nat) :
    bipLoop g (bipFuel g + k) [s] col = bipLoop g (bipFuel g) [s] col := by
  have h1 : uncnt g col ≤ (bipUniv g).length := List.countP_le_length _
  have h2 : (bipUniv g).length = 2 * g.edges.length := bipUniv_length g
  apply bipLoop_stable g _ _ [s] col
  · unfold bipFuel
    simp only [List.length_cons, List.length_nil]
    omega
  · unfold bipFuel
    simp only [List.length_cons, List.length_nil]
    omega

theorem bipLoop_inv (g : Graph) (fuel : Nat) :
    ∀ (q : List Str) (col : List (Str × Int)),
      (∀ x ∈ q, (alGet? col x).isSome = true) →
      (∀ k c, alGet? col k = some c → c = 0 ∨ c = 1) →
      (∀ k c, alGet? col k = some c → alGet? (bipLoop g fuel q col).2.1 k = some c) ∧
      (∀ k c, alGet? (bipLoop g fuel q col).2.1 k = some c → c = 0 ∨ c = 1) ∧
      ((bipLoop g fuel q col).2.2 = true →
        ∃ pre colx u v, (bipLoop g fuel q col).1 =
            pre ++ [{ tag := .partition, partition := some colx,
                      msg := .notBipartite u v }] ∧
          ∀ s ∈ pre, s.tag ≠ Tag.partition) ∧
      ((bipLoop g fuel q col).2.2 = false →
        ∀ s ∈ (bipLoop g fuel q col).1, s.tag ≠ Tag.partition) := by
  induction fuel with
  | zero =>
    intro q col _ hv
    refine ⟨fun k c h => h, hv, ?_, ?_⟩
    · intro h
      simp [bipLoop] at h
    · intro _ s hs
      simp [bipLoop] at hs
  | succ fuel ih =>
    intro q col hq hv
    rcases q with _ | ⟨current, rest⟩
    · refine ⟨fun k c h => h, hv, ?_, ?_⟩
      · intro h
        simp [bipLoop] at h
      · intro _ s hs
        simp [bipLoop] at hs
    · obtain ⟨c, hc⟩ : ∃ c, alGet? col current = some c :=
        Option.isSome_iff_exists.mp (hq current (List.mem_cons_self _ _))
      have hcval : c = 0 ∨ c = 1 := hv current c hc
      rw [bipLoop]
      dsimp only
      rw [hc]
      simp only [Option.getD_some]
      by_cases hstop : (bipNb current c (g.getNeighbors current) col rest).2.2.2 = true
      · rw [if_pos hstop]
        refine ⟨?_, ?_, ?_, ?_⟩
        · intro k c' h
          exact bipNb_col_extend current c (g.getNeighbors current) col rest k c' h
        · intro k c' h
          exact bipNb_col_values current c hcval (g.getNeighbors current) col rest hv k c' h
        · intro _
          obtain ⟨pre, colx, u, v, hsplit, hpre⟩ :=
            bipNb_steps_stop current c (g.getNeighbors current) col rest hstop
          refine ⟨{ tag := .nodeCurrent, nodeId := some current,
                    partition := some col, msg := .visitNodeColor current c } :: pre,
            colx, u, v, ?_, ?_⟩
          · dsimp only
            rw [List.cons_append, ← hsplit]
          · intro s hs
            rcases List.mem_cons.mp hs with hs | hs
            · subst hs; simp
            · exact hpre s hs
        · intro h
          simp at h
      · rw [if_neg hstop]
        simp only [Bool.not_eq_true] at hstop
        have hq' := bipNb_queue_colored current c (g.getNeighbors current) col rest
          (fun x hx => hq x (List.mem_cons_of_mem _ hx))
        have hv' := bipNb_col_values current c hcval (g.getNeighbors current) col rest hv
        obtain ⟨ihext, ihval, ihstop, ihno⟩ := ih
          (bipNb current c (g.getNeighbors current) col rest).2.2.1
          (bipNb current c (g.getNeighbors current) col rest).2.1 hq' hv'
        refine ⟨?_, ?_, ?_, ?_⟩
        · intro k c' h
          exact ihext k c'
            (bipNb_col_extend current c (g.getNeighbors current) col rest k c' h)
        · exact ihval
        · intro h
          dsimp only at h
          obtain ⟨pre, colx, u, v, hsplit, hpre⟩ := ihstop h
          refine ⟨({ tag := .nodeCurrent, nodeId := some current,
                     partition := some col, msg := .visitNodeColor current c } ::
              (bipNb current c (g.getNeighbors current) col rest).1) ++ pre,
            colx, u, v, ?_, ?_⟩
          · dsimp only
            rw [hsplit]
            simp [List.append_assoc]
          · intro s hs
            rcases List.mem_append.mp hs with hs | hs
            · rcases List.mem_cons.mp hs with hs | hs
              · subst hs; simp
              · exact bipNb_steps_nostop current c (g.getNeighbors current) col rest
                  hstop s hs
            · exact hpre s hs
        · intro h s hs
          dsimp only at h hs
          rcases List.mem_cons.mp hs with hs | hs
          · subst hs; simp
          · rcases List.mem_append.mp hs with hs | hs
            · exact bipNb_steps_nostop current c (g.getNeighbors current) col rest
                hstop s hs
            · exact ihno h s hs

theorem bipOuter_inv (g : Graph) : ∀ (ns : List Node) (col : List (Str × Int)),
    (∀ k c, alGet? col k = some c → c = 0 ∨ c = 1) →
    (∀ k c, alGet? col k = some c → alGet? (bipOuter g ns col).2.1 k = some c) ∧
    (∀ k c, alGet? (bipOuter g ns col).2.1 k = some c → c = 0 ∨ c = 1) ∧
    ((bipOuter g ns col).2.2 = true →
      ∃ pre colx u v, (bipOuter g ns col).1 =
          pre ++ [{ tag := .partition, partition := some colx,
                    msg := .notBipartite u v }] ∧
        ∀ s ∈ pre, s.tag ≠ Tag.partition) ∧
    ((bipOuter g ns col).2.2 = false →
      ∀ s ∈ (bipOuter g ns col).1, s.tag ≠ Tag.partition) ∧
    ((bipOuter g ns col).2.2 = false →
      ∀ n ∈ ns, (alGet? (bipOuter g ns col).2.1 n.id).isSome = true) := by
  intro ns
  induction ns with
  | nil =>
    intro col hv
    refine ⟨fun k c h => h, hv, ?_, ?_, ?_⟩
    · intro h
      simp [bipOuter] at h
    · intro _ s hs
      simp [bipOuter] at hs
    · intro _ n hn
      simp at hn
  | cons n ns ih =>
    intro col hv
    rw [bipOuter]
    by_cases hcol : (alGet? col n.id).isSome = true
    · rw [if_pos hcol]
      obtain ⟨ihext, ihval, ihstop, ihno, ihtot⟩ := ih col hv
      refine ⟨ihext, ihval, ihstop, ihno, ?_⟩
      intro h m hm
      rcases List.mem_cons.mp hm with hm | hm
      · subst hm
        obtain ⟨c, hc⟩ := Option.isSome_iff_exists.mp hcol
        rw [ihext _ _ hc]
        rfl
      · exact ihtot h m hm
    · rw [if_neg hcol]
      dsimp only
      simp only [Bool.not_eq_true] at hcol
      have hv0 : ∀ k c, alGet? (alSet col n.id 0) k = some c → c = 0 ∨ c = 1 := by
        intro k c h
        by_cases hk : k = n.id
        · subst hk
          rw [alGet?_alSet_self] at h
          left
          exact (Option.some.inj h).symm
        · rw [alGet?_alSet_ne _ _ _ _ hk] at h
          exact hv k c h
      have hq0 : ∀ x ∈ [n.id], (alGet? (alSet col n.id 0) x).isSome = true := by
        intro x hx
        simp at hx
        subst hx
        rw [alGet?_alSet_self]
        rfl
      obtain ⟨lext, lval, lstop, lno⟩ :=
        bipLoop_inv g (bipFuel g) [n.id] (alSet col n.id 0) hq0 hv0
      have hext0 : ∀ k c, alGet? col k = some c →
          alGet? (alSet col n.id 0) k = some c := by
        intro k c h
        have hk : k ≠ n.id := by
          intro hk
          subst hk
          rw [h] at hcol
          simp at hcol
        rw [alGet?_alSet_ne _ _ _ _ hk]
        exact h
      by_cases hstop : (bipLoop g (bipFuel g) [n.id] (alSet col n.id 0)).2.2 = true
      · rw [if_pos hstop]
        refine ⟨?_, ?_, ?_, ?_, ?_⟩
        · intro k c h
          exact lext k c (hext0 k c h)
        · exact lval
        · intro _
          exact lstop hstop
        · intro h
          simp at h
        · intro h
          simp at h
      · rw [if_neg hstop]
        simp only [Bool.not_eq_true] at hstop
        obtain ⟨ihext, ihval, ihstop, ihno, ihtot⟩ :=
          ih (bipLoop g (bipFuel g) [n.id] (alSet col n.id 0)).2.1 lval
        refine ⟨?_, ?_, ?_, ?_, ?_⟩
        · intro k c h
          exact ihext k c (lext k c (hext0 k c h))
        · exact ihval
        · intro h
          dsimp only at h
          obtain ⟨pre, colx, u, v, hsplit, hpre⟩ := ihstop h
          refine ⟨(bipLoop g (bipFuel g) [n.id] (alSet col n.id 0)).1 ++ pre,
            colx, u, v, ?_, ?_⟩
          · dsimp only
            rw [List.append_assoc, ← hsplit]
          · intro s hs
            rcases List.mem_append.mp hs with hs | hs
            · exact lno hstop s hs
            · exact hpre s hs
        · intro h s hs
          dsimp only at h hs
          rcases List.mem_append.mp hs with hs | hs
          · exact lno hstop s hs
          · exact ihno h s hs
        · intro h m hm
          dsimp only at h ⊢
          rcases List.mem_cons.mp hm with hm | hm
          · subst hm
            have hs : alGet? (alSet col m.id 0) m.id = some 0 := alGet?_alSet_self _ _ _
            have := ihext _ _ (lext _ _ hs)
            rw [this]
            rfl
          · exact ihtot h m hm

/-! Claim C4: the bipartite check's terminal partition step. -/

/-- C4: for every graph, the bipartite-check trace ends with a partition
step and contains no other partition step — so a conflict partition step,
when emitted, is the last step of the entire trace (the whole check stops,
not just that component) — and when the final step reports success, its
coloring maps every vertex of the graph to color 0 or 1. -/
theorem C4_bipartite (g : Graph) :
    ∃ st, (checkBipartite g).getLast? = some st ∧ st.tag = Tag.partition ∧
      (∀ s ∈ (checkBipartite g).dropLast, s.tag ≠ Tag.partition) ∧
      ((∃ colx u v, st = { tag := .partition, partition := some colx,
                           msg := .notBipartite u v }) ∨
       (∃ colx zs os, st = { tag := .partition, partition := some colx,
                             msg := .isBipartite zs os } ∧
          ∀ n ∈ g.nodes, alGet? colx n.id = some 0 ∨ alGet? colx n.id = some 1)) := by
  obtain ⟨hext, hval, hstop, hno, htot⟩ :=
    bipOuter_inv g g.nodes [] (by intro k c h; simp [alGet?] at h)
  unfold checkBipartite
  by_cases hs : (bipOuter g g.nodes []).2.2 = true
  · rw [if_pos hs]
    obtain ⟨pre, colx, u, v, hsplit, hpre⟩ := hstop hs
    refine ⟨_, ?_, rfl, ?_, Or.inl ⟨colx, u, v, rfl⟩⟩
    · rw [hsplit, List.getLast?_concat]
    · rw [hsplit, List.dropLast_concat]
      exact hpre
  · rw [if_neg hs]
    simp only [Bool.not_eq_true] at hs
    refine ⟨_, List.getLast?_concat _, rfl, ?_, ?_⟩
    · rw [List.dropLast_concat]
      exact hno hs
    · refine Or.inr ⟨(bipOuter g g.nodes []).2.1, _, _, rfl, ?_⟩
      intro n hn
      obtain ⟨c, hc⟩ := Option.isSome_iff_exists.mp (htot hs n hn)
      rcases hval n.id c hc with h0 | h0
      · left; rw [hc, h0]
      · right; rw [hc, h0]

/-! Supporting lemmas for the Dijkstra claim. -/

theorem alGet?_mem {α : Type} (m : List (Str × α)) (k : Str) (v : α)
    (h : alGet? m k = some v) : (k, v) ∈ m := by
  induction m with
  | nil => simp [alGet?] at h
  | cons p ps ih =>
    rw [alGet?] at h
    by_cases hp : p.1 = k
    · rw [if_pos hp] at h
      have hv : p.2 = v := Option.some.inj h
      rw [List.mem_cons]
      left
      rw [← hp, ← hv]
    · rw [if_neg hp] at h
      exact List.mem_cons_of_mem _ (ih h)

theorem mem_alSet {α : Type} (m : List (Str × α)) (k : Str) (v : α) (p : Str × α)
    (h : p ∈ alSet m k v) : p = (k, v) ∨ p ∈ m := by
  induction m with
  | nil =>
    rw [alSet] at h
    simp at h
    left; exact h
  | cons q qs ih =>
    rw [alSet] at h
    by_cases hq : q.1 = k
    · rw [if_pos hq] at h
      rcases List.mem_cons.mp h with h | h
      · left; exact h
      · right; exact List.mem_cons_of_mem _ h
    · rw [if_neg hq] at h
      rcases List.mem_cons.mp h with h | h
      · right; rw [h]; exact List.mem_cons_self _ _
      · rcases ih h with h | h
        · left; exact h
        · right; exact List.mem_cons_of_mem _ h

theorem idxOf_le_length (l : List Str) (x : Str) : idxOf l x ≤ l.length := by
  induction l with
  | nil => simp [idxOf]
  | cons a as ih =>
    rw [idxOf]
    by_cases h : a = x
    · simp [h]
    · simp only [if_neg h, List.length_cons]
      omega

theorem idxOf_lt_length_iff (l : List Str) (x : Str) :
    idxOf l x < l.length ↔ x ∈ l := by
  induction l with
  | nil => simp [idxOf]
  | cons a as ih =>
    rw [idxOf]
    by_cases h : a = x
    · simp [h]
    · simp only [if_neg h, List.length_cons, List.mem_cons]
      constructor
      · intro hl
        right
        exact ih.mp (by omega)
      · rintro (hc | hc)
        · exact absurd hc.symm h
        · have := ih.mpr hc
          omega

theorem idxOf_not_mem (l : List Str) (x : Str) (h : x ∉ l) : idxOf l x = l.length := by
  have h1 := idxOf_le_length l x
  rcases Nat.lt_or_ge (idxOf l x) l.length with h2 | h2
  · exact absurd ((idxOf_lt_length_iff l x).mp h2) h
  · omega

theorem idxOf_append_mem (l : List Str) (c x : Str) (h : x ∈ l) :
    idxOf (l ++ [c]) x = idxOf l x := by
  induction l with
  | nil => simp at h
  | cons a as ih =>
    rw [List.cons_append, idxOf, idxOf]
    by_cases ha : a = x
    · simp [ha]
    · rw [if_neg ha, if_neg ha]
      congr 1
      apply ih
      rcases List.mem_cons.mp h with hc | hc
      · exact absurd hc.symm ha
      · exact hc

theorem idxOf_append_self (l : List Str) (c : Str) (h : c ∉ l) :
    idxOf (l ++ [c]) c = l.length := by
  induction l with
  | nil => simp [idxOf]
  | cons a as ih =>
    rw [List.cons_append, idxOf]
    have ha : ¬ a = c := by
      intro hc
      exact h (by simp [hc])
    rw [if_neg ha, ih (fun hc => h (List.mem_cons_of_mem _ hc))]
    simp

theorem idxOf_append_other (l : List Str) (c x : Str) (hx : x ∉ l) (hc : x ≠ c) :
    idxOf (l ++ [c]) x = l.length + 1 := by
  induction l with
  | nil =>
    simp only [List.nil_append, idxOf, List.length_nil]
    rw [if_neg (fun h => hc h.symm)]
  | cons a as ih =>
    rw [List.cons_append, idxOf]
    have ha : ¬ a = x := by
      intro h
      exact hx (by simp [h])
    rw [if_neg ha, ih (fun h => hx (List.mem_cons_of_mem _ h))]
    simp

theorem PrevOK_extend (vis : List Str) (prev : List (Str × Option Str)) (c : Str)
    (hc : c ∉ vis) (h : PrevOK vis prev) : PrevOK (vis ++ [c]) prev := by
  intro v u hvu
  obtain ⟨hu, hlt⟩ := h v u hvu
  refine ⟨List.mem_append_left _ hu, ?_⟩
  rw [idxOf_append_mem _ _ _ hu]
  have hv2 : idxOf vis v ≤ idxOf (vis ++ [c]) v := by
    by_cases hvm : v ∈ vis
    · rw [idxOf_append_mem _ _ _ hvm]
    · rw [idxOf_not_mem _ _ hvm]
      by_cases hvc : v = c
      · subst hvc
        rw [idxOf_append_self _ _ hc]
      · rw [idxOf_append_other _ _ _ hvm hvc]
        omega
  omega

theorem relaxBody_prevOK (vis : List Str) (current : Str) (hcur : current ∈ vis)
    (acc : List Step × List (Str × ENum) × List (Str × Option Str)) (nb : Str × Int)
    (h : PrevOK vis acc.2.2) : PrevOK vis (relaxBody vis current acc nb).2.2 := by
  unfold relaxBody
  by_cases hm : nb.1 ∈ vis
  · rw [if_pos hm]
    exact h
  · rw [if_neg hm]
    rcases hget : alGet? acc.2.1 nb.1 with _ | dOld
    · exact h
    · by_cases hlt : ENum.lt (ENum.add ((alGet? acc.2.1 current).getD .undef)
          (.fin nb.2)) dOld = true
      · simp only [hlt, if_true]
        intro v u hvu
        by_cases hv : v = nb.1
        · subst hv
          rw [alGet?_alSet_self] at hvu
          have hu : u = current := by
            have := Option.some.inj hvu
            exact (Option.some.inj this).symm
          subst hu
          refine ⟨hcur, ?_⟩
          rw [idxOf_not_mem _ _ hm]
          exact (idxOf_lt_length_iff vis u).mpr hcur
        · rw [alGet?_alSet_ne _ _ _ _ hv] at hvu
          exact h v u hvu
      · simp only [Bool.not_eq_true] at hlt
        simp only [hlt, Bool.false_eq_true, if_false]
        exact h

theorem relaxFold_prevOK (vis : List Str) (current : Str) (hcur : current ∈ vis)
    (nbs : List (Str × Int)) :
    ∀ (acc : List Step × List (Str × ENum) × List (Str × Option Str)),
      PrevOK vis acc.2.2 →
      PrevOK vis (nbs.foldl (relaxBody vis current) acc).2.2 := by
  induction nbs with
  | nil => intro acc h; exact h
  | cons nb nbs ih =>
    intro acc h
    rw [List.foldl_cons]
    exact ih _ (relaxBody_prevOK vis current hcur acc nb h)

theorem relaxAll_prevOK (vis : List Str) (current : Str) (hcur : current ∈ vis)
    (nbs : List (Str × Int)) (dist0 : List (Str × ENum))
    (prev0 : List (Str × Option Str)) (h : PrevOK vis prev0) :
    PrevOK vis (relaxAll vis current nbs dist0 prev0).2.2 :=
  relaxFold_prevOK vis current hcur nbs ([], dist0, prev0) h

theorem scanFold_some (dist : List (Str × ENum)) (visited : List Str)
    (univ : List Str) (ns : List Node) :
    ∀ (acc : Option Str × ENum),
      (∀ n ∈ ns, n.id ∈ univ) →
      (∀ c, acc.1 = some c → c ∉ visited ∧ c ∈ univ) →
      ∀ c, (ns.foldl (scanStep dist visited) acc).1 = some c →
        c ∉ visited ∧ c ∈ univ := by
  induction ns with
  | nil => intro acc _ hacc c hc; exact hacc c hc
  | cons n ns ih =>
    intro acc hns hacc c hc
    rw [List.foldl_cons] at hc
    refine ih _ (fun m hm => hns m (List.mem_cons_of_mem _ hm)) ?_ c hc
    intro c' hc'
    unfold scanStep at hc'
    by_cases hcond : n.id ∉ visited ∧
        ENum.lt ((alGet? dist n.id).getD .undef) acc.2 = true
    · rw [if_pos hcond] at hc'
      simp only at hc'
      have : n.id = c' := Option.some.inj hc'
      subst this
      exact ⟨hcond.1, hns n (List.mem_cons_self _ _)⟩
    · rw [if_neg hcond] at hc'
      exact hacc c' hc'

theorem scanMin_some (g : Graph) (dist : List (Str × ENum)) (visited : List Str)
    (c : Str) (d : ENum) (h : scanMin g dist visited = (some c, d)) :
    c ∉ visited ∧ c ∈ g.nodes.map Node.id := by
  have h1 : (g.nodes.foldl (scanStep dist visited) (none, .inf)).1 = some c := by
    unfold scanMin at h
    rw [h]
  exact scanFold_some dist visited (g.nodes.map Node.id) g.nodes (none, .inf)
    (fun n hn => List.mem_map_of_mem _ hn) (by intro c' hc'; simp at hc') c h1

theorem prevInit_none (g : Graph) (start : Str) :
    ∀ (v : Str) (w : Option Str), alGet? (dijkstraInit g start).2 v = some w → w = none := by
  have key : ∀ (ns : List Node) (m : List (Str × Option Str)),
      (∀ p ∈ m, p.2 = none) →
      ∀ p ∈ ns.foldl (fun m n => alSet m n.id none) m, p.2 = none := by
    intro ns
    induction ns with
    | nil => intro m hm p hp; exact hm p hp
    | cons n ns ih =>
      intro m hm p hp
      rw [List.foldl_cons] at hp
      refine ih _ ?_ p hp
      intro q hq
      rcases mem_alSet _ _ _ _ hq with h | h
      · rw [h]
      · exact hm q h
  intro v w hw
  have hm := key g.nodes [] (by simp) _ (alGet?_mem _ _ _ hw)
  exact hm

theorem prevOK_init (g : Graph) (start : Str) : PrevOK [] (dijkstraInit g start).2 := by
  intro v u hvu
  have := prevInit_none g start v (some u) hvu
  simp at this

theorem dijkstraLoop_inv (g : Graph) (fuel : Nat) :
    ∀ (dist : List (Str × ENum)) (prev : List (Str × Option Str)) (visited : List Str),
      PrevOK visited prev → visited.Nodup →
      (∀ x ∈ visited, x ∈ g.nodes.map Node.id) →
      PrevOK (dijkstraLoop g fuel dist prev visited).2.2.2
          (dijkstraLoop g fuel dist prev visited).2.2.1 ∧
        (dijkstraLoop g fuel dist prev visited).2.2.2.Nodup ∧
        (∀ x ∈ (dijkstraLoop g fuel dist prev visited).2.2.2,
          x ∈ g.nodes.map Node.id) := by
  induction fuel with
  | zero =>
    intro dist prev visited h1 h2 h3
    exact ⟨h1, h2, h3⟩
  | succ fuel ih =>
    intro dist prev visited h1 h2 h3
    rw [dijkstraLoop]
    by_cases hlen : visited.length < g.nodes.length
    · rw [if_pos hlen]
      rcases hscan : scanMin g dist visited with ⟨copt, minD⟩
      rcases copt with _ | current
      · exact ⟨h1, h2, h3⟩
      · dsimp only
        by_cases hinf : minD = ENum.inf
        · rw [if_pos hinf]
          exact ⟨h1, h2, h3⟩
        · rw [if_neg hinf]
          obtain ⟨hnm, hmem⟩ := scanMin_some g dist visited current minD hscan
          have hadd : setAdd visited current = visited ++ [current] := by
            unfold setAdd
            rw [if_neg hnm]
          have h1' : PrevOK (setAdd visited current) prev := by
            rw [hadd]
            exact PrevOK_extend visited prev current hnm h1
          have hcur : current ∈ setAdd visited current := by
            rw [hadd]
            simp
          have h1'' : PrevOK (setAdd visited current)
              (relaxAll (setAdd visited current) current
                (g.getNeighbors current) dist prev).2.2 :=
            relaxAll_prevOK _ current hcur _ _ _ h1'
          have h2' : (setAdd visited current).Nodup := by
            rw [hadd]
            simp [List.nodup_append, h2, hnm]
          have h3' : ∀ x ∈ setAdd visited current, x ∈ g.nodes.map Node.id := by
            rw [hadd]
            intro x hx
            rcases List.mem_append.mp hx with hx | hx
            · exact h3 x hx
            · simp at hx
              subst hx
              exact hmem
          exact ih _ _ _ h1'' h2' h3'
    · rw [if_neg hlen]
      exact ⟨h1, h2, h3⟩

theorem dijkstraCore_inv (g : Graph) (start : Str) :
    PrevOK (dijkstraCore g start).2.2.2 (dijkstraCore g start).2.2.1 ∧
      (dijkstraCore g start).2.2.2.Nodup ∧
      (∀ x ∈ (dijkstraCore g start).2.2.2, x ∈ g.nodes.map Node.id) :=
  dijkstraLoop_inv g _ _ _ [] (prevOK_init g start) (by simp) (by simp)

theorem nodup_subset_length_le {α : Type} [DecidableEq α] (l u : List α)
    (h : l.Nodup) (hs : ∀ x ∈ l, x ∈ u) : l.length ≤ u.length := by
  calc l.length = l.toFinset.card := (List.toFinset_card_of_nodup h).symm
    _ ≤ u.toFinset.card := Finset.card_le_card (fun x hx => by
        rw [List.mem_toFinset] at hx ⊢
        exact hs x hx)
    _ ≤ u.length := u.toFinset_card_le

theorem dijkstraCore_vis_le (g : Graph) (start : Str) :
    (dijkstraCore g start).2.2.2.length ≤ g.nodes.length := by
  obtain ⟨-, hnd, hsub⟩ := dijkstraCore_inv g start
  calc (dijkstraCore g start).2.2.2.length ≤ (g.nodes.map Node.id).length :=
      nodup_subset_length_le _ _ hnd hsub
    _ = g.nodes.length := by simp

theorem reconstruct_none (prev : List (Str × Option Str)) (f : Nat) (acc : List Str) :
    reconstruct f prev none acc = acc := by
  cases f <;> rfl

theorem orNull_eq_some (v : Option (Option Str)) (u : Str) (h : orNull v = some u) :
    v = some (some u) := by
  rcases v with _ | w
  · simp [orNull] at h
  · rcases w with _ | w'
    · simp [orNull] at h
    · unfold orNull at h
      dsimp only at h
      by_cases hw : w' = []
      · rw [if_pos hw] at h
        simp at h
      · rw [if_neg hw] at h
        rw [Option.some.inj h]

theorem reconstruct_stable_aux (vis : List Str) (prev : List (Str × Option Str))
    (hOK : PrevOK vis prev) (n : Nat) :
    ∀ (x : Str) (f1 f2 : Nat) (acc : List Str),
      idxOf vis x ≤ n → n + 2 ≤ f1 → n + 2 ≤ f2 →
      reconstruct f1 prev (some x) acc = reconstruct f2 prev (some x) acc := by
  induction n with
  | zero =>
    intro x f1 f2 acc hidx h1 h2
    obtain ⟨a, rfl⟩ : ∃ a, f1 = a + 1 := ⟨f1 - 1, by omega⟩
    obtain ⟨b, rfl⟩ : ∃ b, f2 = b + 1 := ⟨f2 - 1, by omega⟩
    rw [reconstruct, reconstruct]
    rcases ho : orNull (alGet? prev x) with _ | u
    · rw [reconstruct_none, reconstruct_none]
    · have hv := orNull_eq_some _ _ ho
      obtain ⟨-, hlt⟩ := hOK x u hv
      omega
  | succ n ih =>
    intro x f1 f2 acc hidx h1 h2
    obtain ⟨a, rfl⟩ : ∃ a, f1 = a + 1 := ⟨f1 - 1, by omega⟩
    obtain ⟨b, rfl⟩ : ∃ b, f2 = b + 1 := ⟨f2 - 1, by omega⟩
    rw [reconstruct, reconstruct]
    rcases ho : orNull (alGet? prev x) with _ | u
    · rw [reconstruct_none, reconstruct_none]
    · have hv := orNull_eq_some _ _ ho
      obtain ⟨-, hlt⟩ := hOK x u hv
      exact ih u a b (x :: acc) (by omega) (by omega) (by omega)

theorem reconstruct_stable (vis : List Str) (prev : List (Str × Option Str))
    (hOK : PrevOK vis prev) (n : Nat) (hlen : vis.length ≤ n) (x : Str) (k : Nat)
    (acc : List Str) :
    reconstruct (n + 2 + k) prev (some x) acc = reconstruct (n + 2) prev (some x) acc :=
  reconstruct_stable_aux vis prev hOK n x _ _ acc
    (le_trans (idxOf_le_length vis x) hlen) (by omega) (by omega)

/-! Claim C1: Dijkstra on the sample graph, and the shape of the terminal
path-found step. -/

/-- C1: on the sample graph the dijkstra producer ends with a path-found
step carrying path [A, C, D] and total weight 3; in general the trace ends
with exactly the step `dijkstraFinal`, which reconstructs the path by
walking predecessor links backward from the target and carries the full
path and total weight exactly when the reconstructed path's first vertex is
the start, and otherwise carries no path; and the fuel given to the
backward walk is sufficient (the walk is stable under any extra fuel). -/
theorem C1_dijkstra :
    ((dijkstra sampleG ['A'] ['D']).getLast? =
      some { tag := .pathFound, path := some [['A'], ['C'], ['D']],
             totalWeight := .fin 3,
             highlightNodes := some [['A'], ['C'], ['D']],
             msg := .shortestPath [['A'], ['C'], ['D']] (.fin 3) }) ∧
    (∀ (g : Graph) (startId endId : Str),
      (dijkstra g startId endId).getLast? =
        some (dijkstraFinal g (toUpperS startId) (toUpperS endId)
          (dijkstraCore g (toUpperS startId)).2.1
          (dijkstraCore g (toUpperS startId)).2.2.1)) ∧
    (∀ (g : Graph) (start e : Str) (dist : List (Str × ENum))
        (prev : List (Str × Option Str)),
      ((reconstruct (g.nodes.length + 2) prev (some e) []).head? = some start →
        dijkstraFinal g start e dist prev =
          { tag := .pathFound,
            path := some (reconstruct (g.nodes.length + 2) prev (some e) []),
            totalWeight := (alGet? dist e).getD .undef,
            highlightNodes := some (reconstruct (g.nodes.length + 2) prev (some e) []),
            msg := .shortestPath (reconstruct (g.nodes.length + 2) prev (some e) [])
              ((alGet? dist e).getD .undef) }) ∧
      ((reconstruct (g.nodes.length + 2) prev (some e) []).head? ≠ some start →
        dijkstraFinal g start e dist prev =
          { tag := .pathFound, msg := .noPath start e })) ∧
    (∀ (g : Graph) (startId endId : Str) (k : Nat),
      reconstruct (g.nodes.length + 2 + k) (dijkstraCore g (toUpperS startId)).2.2.1
          (some (toUpperS endId)) [] =
        reconstruct (g.nodes.length + 2) (dijkstraCore g (toUpperS startId)).2.2.1
          (some (toUpperS endId)) []) := by
  refine ⟨by decide, ?_, ?_, ?_⟩
  · intro g startId endId
    unfold dijkstra
    rw [List.getLast?_concat]
  · intro g start e dist prev
    constructor
    · intro h
      simp only [dijkstraFinal]
      rw [if_pos h]
    · intro h
      simp only [dijkstraFinal]
      rw [if_neg h]
  · intro g startId endId k
    exact reconstruct_stable _ _ (dijkstraCore_inv g (toUpperS startId)).1 _
      (dijkstraCore_vis_le g (toUpperS startId)) _ k []

/-- Witness for C1 instantiating the success case of the terminal step at
the sample graph: the reconstructed path from D starts at A, so the
terminal step carries path [A, C, D] and total weight 3. -/
theorem C1_dijkstra_witness :
    (reconstruct (sampleG.nodes.length + 2) (dijkstraCore sampleG ['A']).2.2.1
        (some ['D']) []).head? = some ['A'] ∧
    dijkstraFinal sampleG ['A'] ['D'] (dijkstraCore sampleG ['A']).2.1
        (dijkstraCore sampleG ['A']).2.2.1 =
      { tag := .pathFound, path := some [['A'], ['C'], ['D']],
        totalWeight := .fin 3, highlightNodes := some [['A'], ['C'], ['D']],
        msg := .shortestPath [['A'], ['C'], ['D']] (.fin 3) } := by
  constructor
  · decide
  · have h := (C1_dijkstra.2.2.1 sampleG ['A'] ['D'] (dijkstraCore sampleG ['A']).2.1
      (dijkstraCore sampleG ['A']).2.2.1).1 (by decide)
    rw [h]
    decide

/-! Claim C3: MST agreement on the sample graph. -/

/-- C3: on the sample graph both spanning-tree producers end in a
node-complete step of total weight 4, the accepted tree edges being A-B,
A-C/C-D in the orders shown (the same three edges in each case: A-B, C-D,
and A-C). -/
theorem C3_mst_agreement :
    mstEdgesOf (primMST sampleG) =
      [(some ['A'], some ['B']), (some ['A'], some ['C']), (some ['C'], some ['D'])] ∧
    (primMST sampleG).getLast?.map Step.tag = some Tag.nodeComplete ∧
    (primMST sampleG).getLast?.map Step.totalWeight = some (ENum.fin 4) ∧
    mstEdgesOf (kruskalMST sampleG) =
      [(some ['A'], some ['B']), (some ['C'], some ['D']), (some ['A'], some ['C'])] ∧
    (kruskalMST sampleG).getLast?.map Step.tag = some Tag.nodeComplete ∧
    (kruskalMST sampleG).getLast?.map Step.totalWeight = some (ENum.fin 4) := by
  refine ⟨by decide, by decide, by decide, by decide, by decide, by decide⟩

/-! Claim C6: the alternate Euler variant is a full delegation. -/

/-- C6: for every graph, the fleury producer emits exactly the same step
sequence as the hierholzer producer — the alternate Euler variant is a full
delegation with no bridge-avoidance logic. -/
theorem C6_fleury_delegates (g : Graph) : fleury g = hierholzer g := rfl

/-! Supporting lemmas for the Ford-Fulkerson claim. -/

theorem head?_append_some {α : Type} (p q : List α) (a : α) (h : p.head? = some a) :
    (p ++ q).head? = some a := by
  cases p with
  | nil => simp at h
  | cons x xs => simpa using h

theorem zip_tail_append (p : List Str) (x y : Str) (h : p.getLast? = some x) :
    (p ++ [y]).zip (p ++ [y]).tail = p.zip p.tail ++ [(x, y)] := by
  induction p with
  | nil => simp at h
  | cons a as ih =>
    cases as with
    | nil =>
      simp at h
      subst h
      rfl
    | cons b bs =>
      have h' : (b :: bs).getLast? = some x := by
        rwa [List.getLast?_cons_cons] at h
      have ihh := ih h'
      simp only [List.cons_append, List.tail_cons, List.zip_cons_cons] at ihh ⊢
      rw [ihh]

theorem alGet?_of_mem_nodup {α : Type} (row : List (Str × α))
    (hnd : (alKeys row).Nodup) (p : Str × α) (hp : p ∈ row) :
    alGet? row p.1 = some p.2 := by
  induction row with
  | nil => simp at hp
  | cons q qs ih =>
    rw [alGet?]
    unfold alKeys at hnd
    simp only [List.map_cons, List.nodup_cons] at hnd
    rcases List.mem_cons.mp hp with hp | hp
    · subst hp
      rw [if_pos rfl]
    · have hq : ¬ q.1 = p.1 := by
        intro hc
        apply hnd.1
        rw [hc]
        exact List.mem_map_of_mem Prod.fst hp
      rw [if_neg hq]
      exact ih hnd.2 hp

theorem alKeys_alSet_nodup {α : Type} (m : List (Str × α)) (k : Str) (v : α)
    (h : (alKeys m).Nodup) : (alKeys (alSet m k v)).Nodup := by
  rw [alKeys_alSet]
  by_cases hh : alHas m k = true
  · rw [if_pos hh]
    exact h
  · rw [if_neg hh]
    have hk : k ∉ alKeys m := fun hc => hh ((alHas_iff m k).mpr hc)
    simp [List.nodup_append, h, hk]

theorem rowSum_alSet_mem (row : List (Str × Int)) (k : Str) (v v0 : Int)
    (h : alGet? row k = some v0) :
    rowSum (alSet row k v) + v0.toNat = rowSum row + v.toNat := by
  induction row with
  | nil => simp [alGet?] at h
  | cons p ps ih =>
    rw [alGet?] at h
    by_cases hp : p.1 = k
    · rw [if_pos hp] at h
      have hv : p.2 = v0 := Option.some.inj h
      subst hv
      rw [alSet, if_pos hp]
      unfold rowSum
      simp only [List.map_cons, List.sum_cons]
      omega
    · rw [if_neg hp] at h
      rw [alSet, if_neg hp]
      unfold rowSum at ih ⊢
      simp only [List.map_cons, List.sum_cons]
      have := ih h
      omega

theorem rowSum_ge_entry (row : List (Str × Int)) (k : Str) (c : Int)
    (h : alGet? row k = some c) : c.toNat ≤ rowSum row := by
  have hm := alGet?_mem row k c h
  unfold rowSum
  have hmem : c.toNat ∈ row.map (fun p => p.2.toNat) :=
    List.mem_map_of_mem (fun p => p.2.toNat) hm
  exact List.single_le_sum (fun x _ => Nat.zero_le x) _ hmem

theorem hasNode_iff (g : Graph) (x : Str) :
    g.hasNode x = true ↔ ∃ n ∈ g.nodes, n.id = x := by
  unfold Graph.hasNode
  simp [List.any_eq_true]

theorem keys_nodeFold (ns : List Node) :
    ∀ (m : Cap) (x : Str),
      x ∈ alKeys (ns.foldl (fun m n => alSet m n.id []) m) ↔
        x ∈ alKeys m ∨ ∃ n ∈ ns, n.id = x := by
  induction ns with
  | nil =>
    intro m x
    simp
  | cons n ns ih =>
    intro m x
    rw [List.foldl_cons, ih (alSet m n.id []) x]
    rw [alKeys_alSet]
    by_cases hh : alHas m n.id = true
    · rw [if_pos hh]
      constructor
      · rintro (h | h)
        · left; exact h
        · obtain ⟨n', hn', hx⟩ := h
          right
          exact ⟨n', List.mem_cons_of_mem _ hn', hx⟩
      · rintro (h | h)
        · left; exact h
        · obtain ⟨n', hn', hx⟩ := h
          rcases List.mem_cons.mp hn' with h' | h'
          · subst h'
            left
            rw [← hx]
            exact (alHas_iff m n'.id).mp hh
          · right
            exact ⟨n', h', hx⟩
    · rw [if_neg hh]
      simp only [List.mem_append, List.mem_singleton]
      constructor
      · rintro ((h | h) | h)
        · left; exact h
        · right
          exact ⟨n, List.mem_cons_self _ _, h.symm⟩
        · obtain ⟨n', hn', hx⟩ := h
          right
          exact ⟨n', List.mem_cons_of_mem _ hn', hx⟩
      · rintro (h | h)
        · left; left; exact h
        · obtain ⟨n', hn', hx⟩ := h
          rcases List.mem_cons.mp hn' with h' | h'
          · subst h'
            left; right
            exact hx.symm
          · right
            exact ⟨n', h', hx⟩

theorem capInit_keys_edgeFold (es : List Edge) :
    ∀ (m : Cap), alKeys (es.foldl (fun m e =>
        match alGet? m e.efrom with
        | some row => alSet m e.efrom (alSet row e.eto e.weight)
        | none => m) m) = alKeys m := by
  induction es with
  | nil => intro m; rfl
  | cons e es ih =>
    intro m
    rw [List.foldl_cons]
    rcases hg : alGet? m e.efrom with _ | row
    · dsimp only
      exact ih m
    · dsimp only
      rw [ih (alSet m e.efrom (alSet row e.eto e.weight))]
      have hhas : alHas m e.efrom = true := by
        apply (alHas_iff _ _).mpr
        apply (alGet?_isSome_iff _ _).mp
        rw [hg]
        rfl
      rw [alKeys_alSet, if_pos hhas]

theorem capInit_keys (g : Graph) (x : Str) :
    x ∈ alKeys (capInit g) ↔ g.hasNode x = true := by
  unfold capInit
  rw [capInit_keys_edgeFold, keys_nodeFold]
  rw [hasNode_iff]
  constructor
  · rintro (h | h)
    · simp [alKeys] at h
    · exact h
  · intro h
    right
    exact h

theorem mem_nodeFold_rows (ns : List Node) :
    ∀ (m : Cap) (r : Str × List (Str × Int)),
      r ∈ ns.foldl (fun m n => alSet m n.id []) m → r.2 = [] ∨ r ∈ m := by
  induction ns with
  | nil => intro m r h; right; exact h
  | cons n ns ih =>
    intro m r h
    rw [List.foldl_cons] at h
    rcases ih _ _ h with h | h
    · left; exact h
    · rcases mem_alSet _ _ _ _ h with h | h
      · left; rw [h]
      · right; exact h

theorem rows_nodup_edgeFold (es : List Edge) :
    ∀ (m : Cap), (∀ r ∈ m, (alKeys r.2).Nodup) →
      ∀ r ∈ es.foldl (fun m e =>
        match alGet? m e.efrom with
        | some row => alSet m e.efrom (alSet row e.eto e.weight)
        | none => m) m, (alKeys r.2).Nodup := by
  induction es with
  | nil => intro m hm r hr; exact hm r hr
  | cons e es ih =>
    intro m hm r hr
    rw [List.foldl_cons] at hr
    rcases hg : alGet? m e.efrom with _ | row
    · rw [hg] at hr
      dsimp only at hr
      exact ih m hm r hr
    · rw [hg] at hr
      dsimp only at hr
      refine ih _ ?_ r hr
      intro r' hr'
      rcases mem_alSet _ _ _ _ hr' with h | h
      · rw [h]
        exact alKeys_alSet_nodup _ _ _ (hm (e.efrom, row) (alGet?_mem _ _ _ hg))
      · exact hm r' h

theorem capInit_rows_nodup (g : Graph) :
    ∀ r ∈ capInit g, (alKeys r.2).Nodup := by
  unfold capInit
  apply rows_nodup_edgeFold
  intro r hr
  rcases mem_nodeFold_rows g.nodes [] r hr with h | h
  · rw [h]
    exact List.nodup_nil
  · simp at h

theorem rows_hasNode_edgeFold (g : Graph) (es : List Edge)
    (hes : ∀ e ∈ es, g.hasNode e.eto = true) :
    ∀ (m : Cap), (∀ r ∈ m, ∀ p ∈ r.2, g.hasNode p.1 = true) →
      ∀ r ∈ es.foldl (fun m e =>
        match alGet? m e.efrom with
        | some row => alSet m e.efrom (alSet row e.eto e.weight)
        | none => m) m, ∀ p ∈ r.2, g.hasNode p.1 = true := by
  induction es with
  | nil => intro m hm r hr; exact hm r hr
  | cons e es ih =>
    intro m hm r hr
    rw [List.foldl_cons] at hr
    rcases hg : alGet? m e.efrom with _ | row
    · rw [hg] at hr
      dsimp only at hr
      exact ih (fun e' he' => hes e' (List.mem_cons_of_mem _ he')) m hm r hr
    · rw [hg] at hr
      dsimp only at hr
      refine ih (fun e' he' => hes e' (List.mem_cons_of_mem _ he')) _ ?_ r hr
      intro r' hr' p hp
      rcases mem_alSet _ _ _ _ hr' with h | h
      · rw [h] at hp
        dsimp only at hp
        rcases mem_alSet _ _ _ _ hp with h' | h'
        · rw [h']
          exact hes e (List.mem_cons_self _ _)
        · exact hm (e.efrom, row) (alGet?_mem _ _ _ hg) p h'
      · exact hm r' h p hp

theorem capInit_rowsOK (g : Graph) (hwf : g.wf) :
    ∀ r ∈ capInit g, ∀ p ∈ r.2, p.1 ∈ alKeys (capInit g) := by
  intro r hr p hp
  rw [capInit_keys]
  refine rows_hasNode_edgeFold g g.edges ?_
    (g.nodes.foldl (fun m n => alSet m n.id []) []) ?_ r ?_ p hp
  · intro e he
    rw [hasNode_iff]
    exact (hwf e he).2
  · intro r' hr' p' hp'
    rcases mem_nodeFold_rows g.nodes [] r' hr' with h | h
    · rw [h] at hp'
      simp at hp'
    · simp at h
  · unfold capInit at hr
    exact hr

theorem mem_of_getLast?_some {α : Type} {l : List α} {a : α}
    (h : l.getLast? = some a) : a ∈ l := by
  obtain ⟨hne, hx⟩ := List.mem_getLast?_eq_getLast h
  subst hx
  exact List.getLast_mem hne

theorem mem_capUniv (cap : Cap) (r : Str × List (Str × Int)) (hr : r ∈ cap)
    (q : Str × Int) (hq : q ∈ r.2) : q.1 ∈ capUniv cap := by
  unfold capUniv
  rw [List.mem_flatten]
  exact ⟨r.2.map Prod.fst, List.mem_map_of_mem _ hr, List.mem_map_of_mem _ hq⟩

theorem fpFold_ok (cap : Cap) (s0 current : Str) (path : List Str)
    (row0 : List (Str × Int))
    (hnd : ∀ r ∈ cap, (alKeys r.2).Nodup)
    (hok : ∀ r ∈ cap, ∀ q ∈ r.2, q.1 ∈ alKeys cap)
    (hrow : alGet? cap current = some row0)
    (hph : path.head? = some s0) (hpl : path.getLast? = some current)
    (hpn : path.Nodup) (hpp : pairsPos cap path)
    (hpk : ∀ y ∈ path, y ∈ alKeys cap) :
    ∀ (row : List (Str × Int)), (∀ q ∈ row, q ∈ row0) →
    ∀ (acc : List Step × List (Str × List Str) × List Str),
      QInv cap s0 acc.2.2 acc.2.1 → (∀ y ∈ path, y ∈ acc.2.2) →
      QInv cap s0 (row.foldl (fpExplore current path) acc).2.2
          (row.foldl (fpExplore current path) acc).2.1 ∧
      (∀ y ∈ acc.2.2, y ∈ (row.foldl (fpExplore current path) acc).2.2) ∧
      (∀ st ∈ (row.foldl (fpExplore current path) acc).1,
          st ∈ acc.1 ∨ st.tag = .edgeVisit) ∧
      ∃ k, (row.foldl (fpExplore current path) acc).2.1.length
            = acc.2.1.length + k ∧
        fpcnt cap (row.foldl (fpExplore current path) acc).2.2 + k
            ≤ fpcnt cap acc.2.2 := by
  intro row
  induction row with
  | nil =>
    intro _ acc hQ _
    exact ⟨hQ, fun y hy => hy, fun st hst => Or.inl hst, 0, rfl, Nat.le_refl _⟩
  | cons q row ih =>
    intro hsub acc hQ hpv
    rw [List.foldl_cons]
    by_cases hc : q.1 ∉ acc.2.2 ∧ 0 < q.2
    · have hstep : fpExplore current path acc q =
          (acc.1 ++ [{ tag := .edgeVisit, edgeFrom := some current,
                       edgeTo := some q.1, value := .fin q.2,
                       msg := .foundEdgeF current q.1 q.2 }],
           acc.2.1 ++ [(q.1, path ++ [q.1])], acc.2.2 ++ [q.1]) := by
        unfold fpExplore
        rw [if_pos hc]
      have hq0 : q ∈ row0 := hsub q (List.mem_cons_self _ _)
      have hq1k : q.1 ∈ alKeys cap :=
        hok (current, row0) (alGet?_mem _ _ _ hrow) q hq0
      have hqcap : alGet? row0 q.1 = some q.2 :=
        alGet?_of_mem_nodup row0 (hnd (current, row0) (alGet?_mem _ _ _ hrow)) q hq0
      have hnp : q.1 ∉ path := fun hmem => hc.1 (hpv q.1 hmem)
      have hQ' : QInv cap s0 (fpExplore current path acc q).2.2
          (fpExplore current path acc q).2.1 := by
        rw [hstep]
        intro e he
        rcases List.mem_append.mp he with he | he
        · obtain ⟨h1, h2, h3, h4, h5, h6⟩ := hQ e he
          exact ⟨h1, h2, h3, h4, fun y hy => List.mem_append_left _ (h5 y hy), h6⟩
        · rw [List.mem_singleton] at he
          subst he
          refine ⟨head?_append_some path [q.1] s0 hph, List.getLast?_concat path,
                  ?_, ?_, ?_, ?_⟩
          · simp [List.nodup_append, hpn, hnp]
          · intro pr hpr
            rw [zip_tail_append path current q.1 hpl] at hpr
            rcases List.mem_append.mp hpr with hpr | hpr
            · exact hpp pr hpr
            · rw [List.mem_singleton] at hpr
              subst hpr
              refine ⟨q.2, ?_, hc.2⟩
              unfold pairCap
              rw [hrow]
              exact hqcap
          · intro y hy
            rcases List.mem_append.mp hy with hy | hy
            · exact List.mem_append_left _ (hpv y hy)
            · exact List.mem_append_right _ hy
          · intro y hy
            rcases List.mem_append.mp hy with hy | hy
            · exact hpk y hy
            · rw [List.mem_singleton] at hy
              subst hy
              exact hq1k
      have hpv' : ∀ y ∈ path, y ∈ (fpExplore current path acc q).2.2 := by
        rw [hstep]
        exact fun y hy => List.mem_append_left _ (hpv y hy)
      obtain ⟨hA, hB, hC, k, hk1, hk2⟩ :=
        ih (fun q' hq' => hsub q' (List.mem_cons_of_mem _ hq'))
          (fpExplore current path acc q) hQ' hpv'
      have hgrow : ∀ y ∈ acc.2.2, y ∈ (fpExplore current path acc q).2.2 := by
        rw [hstep]
        exact fun y hy => List.mem_append_left _ hy
      have hsteps : ∀ st ∈ (fpExplore current path acc q).1,
          st ∈ acc.1 ∨ st.tag = .edgeVisit := by
        rw [hstep]
        intro st hst
        rcases List.mem_append.mp hst with hst | hst
        · exact Or.inl hst
        · rw [List.mem_singleton] at hst
          subst hst
          exact Or.inr rfl
      have hlen : (fpExplore current path acc q).2.1.length = acc.2.1.length + 1 := by
        rw [hstep]
        simp
      have hwit : q.1 ∈ capUniv cap :=
        mem_capUniv cap (current, row0) (alGet?_mem _ _ _ hrow) q hq0
      have hcnt1 : fpcnt cap (fpExplore current path acc q).2.2 + 1
          ≤ fpcnt cap acc.2.2 := by
        rw [hstep]
        unfold fpcnt
        refine countP_lt_of_witness _ _ _ ?_ q.1 hwit ?_ ?_
        · intro x hx
          simp only [Bool.not_eq_true', decide_eq_false_iff_not, List.mem_append,
            List.mem_singleton] at hx ⊢
          exact fun h => hx (Or.inl h)
        · simp [hc.1]
        · simp
      refine ⟨hA, ?_, ?_, k + 1, ?_, ?_⟩
      · intro y hy
        exact hB y (hgrow y hy)
      · intro st hst
        rcases hC st hst with h | h
        · exact hsteps st h
        · exact Or.inr h
      · rw [hk1, hlen]
        omega
      · omega
    · have hstep : fpExplore current path acc q = acc := by
        unfold fpExplore
        rw [if_neg hc]
      rw [hstep]
      exact ih (fun q' hq' => hsub q' (List.mem_cons_of_mem _ hq')) acc hQ hpv

theorem findPath_ok (cap : Cap) (s0 sink : Str)
    (hnd : ∀ r ∈ cap, (alKeys r.2).Nodup)
    (hok : ∀ r ∈ cap, ∀ q ∈ r.2, q.1 ∈ alKeys cap) :
    ∀ (fuel : Nat) (q : List (Str × List Str)) (vis : List Str),
      QInv cap s0 vis q → q.length + fpcnt cap vis < fuel →
      findPath cap sink fuel q vis ≠ .out ∧
      (∀ ss p, findPath cap sink fuel q vis = .found ss p →
        FoundPost cap s0 sink ss p) ∧
      (∀ ss, findPath cap sink fuel q vis = .nopath ss → searchTags ss) := by
  intro fuel
  induction fuel with
  | zero =>
    intro q vis _ hm
    exact absurd hm (Nat.not_lt_zero _)
  | succ fuel ih =>
    intro q vis hQ hm
    match q with
    | [] =>
      rw [findPath]
      refine ⟨by simp, ?_, ?_⟩
      · intro ss p h
        exact FPRes.noConfusion h
      · intro ss h
        injection h with h1
        rw [← h1]
        intro st hst
        simp at hst
    | (current, path) :: rest =>
      obtain ⟨hph, hpl, hpn, hpp, hpv, hpk⟩ := hQ (current, path) (List.mem_cons_self _ _)
      rw [findPath]
      dsimp only
      by_cases hcs : current = sink
      · rw [if_pos hcs]
        refine ⟨by simp, ?_, ?_⟩
        · intro ss p h
          injection h with h1 h2
          subst h2
          refine ⟨?_, hph, ?_, hpn, hpp, hpk⟩
          · rw [← h1]
            intro st hst
            rw [List.mem_singleton] at hst
            subst hst
            exact Or.inl rfl
          · rw [hpl, hcs]
        · intro ss h
          exact FPRes.noConfusion h
      · rw [if_neg hcs]
        have hcur : current ∈ alKeys cap := hpk current (mem_of_getLast?_some hpl)
        obtain ⟨row0, hrow⟩ : ∃ r, alGet? cap current = some r := by
          rcases h : alGet? cap current with _ | r
          · exfalso
            have hs := (alGet?_isSome_iff cap current).mpr hcur
            rw [h] at hs
            simp at hs
          · exact ⟨r, rfl⟩
        rw [hrow]
        dsimp only [Option.getD]
        have hrest : QInv cap s0 vis rest :=
          fun e he => hQ e (List.mem_cons_of_mem _ he)
        obtain ⟨hA, hB, hC, k, hk1, hk2⟩ :=
          fpFold_ok cap s0 current path row0 hnd hok hrow hph hpl hpn hpp hpk
            row0 (fun q' hq' => hq') ([], rest, vis) hrest hpv
        have hm' : (row0.foldl (fpExplore current path) ([], rest, vis)).2.1.length
            + fpcnt cap (row0.foldl (fpExplore current path) ([], rest, vis)).2.2
            < fuel := by
          have h1 : (row0.foldl (fpExplore current path) ([], rest, vis)).2.1.length
              = rest.length + k := hk1
          have h2 : fpcnt cap
                (row0.foldl (fpExplore current path) ([], rest, vis)).2.2 + k
              ≤ fpcnt cap vis := hk2
          simp only [List.length_cons] at hm
          omega
        obtain ⟨hno, hfd, hnp2⟩ := ih _ _ hA hm'
        rcases hrec : findPath cap sink fuel
            (row0.foldl (fpExplore current path) ([], rest, vis)).2.1
            (row0.foldl (fpExplore current path) ([], rest, vis)).2.2
          with _ | ⟨ss, p⟩ | ss
        · exact absurd hrec hno
        · dsimp only
          refine ⟨by simp, ?_, ?_⟩
          · intro ss' p' h
            injection h with h1 h2
            subst h2
            obtain ⟨htags, hr2, hr3, hr4, hr5, hr6⟩ := hfd ss p hrec
            refine ⟨?_, hr2, hr3, hr4, hr5, hr6⟩
            rw [← h1]
            intro st hst
            rcases List.mem_cons.mp hst with hst | hst
            · subst hst
              exact Or.inl rfl
            · rcases List.mem_append.mp hst with hst | hst
              · rcases hC st hst with h' | h'
                · simp at h'
                · exact Or.inr h'
              · exact htags st hst
          · intro ss' h
            exact FPRes.noConfusion h
        · dsimp only
          refine ⟨by simp, ?_, ?_⟩
          · intro ss' p' h
            exact FPRes.noConfusion h
          · intro ss' h
            injection h with h1
            rw [← h1]
            intro st hst
            rcases List.mem_cons.mp hst with hst | hst
            · subst hst
              exact Or.inl rfl
            · rcases List.mem_append.mp hst with hst | hst
              · rcases hC st hst with h' | h'
                · simp at h'
                · exact Or.inr h'
              · exact hnp2 ss hrec st hst

theorem minCap_fold (cap : Cap) :
    ∀ (l : List (Str × Str)) (a : Int),
      (∀ pr ∈ l, ∃ c, pairCap cap pr.1 pr.2 = some c ∧ 0 < c) → 1 ≤ a →
      ∃ m, l.foldl (fun m pr => ENum.minCap m (pairCap cap pr.1 pr.2)) (.fin a)
            = .fin m ∧
        1 ≤ m ∧ m ≤ a ∧ ∀ pr ∈ l, ∀ c, pairCap cap pr.1 pr.2 = some c → m ≤ c := by
  intro l
  induction l with
  | nil =>
    intro a _ ha
    exact ⟨a, rfl, ha, Int.le_refl a, fun pr hpr => absurd hpr (List.not_mem_nil pr)⟩
  | cons pr l ih =>
    intro a hpos ha
    obtain ⟨c, hc, hcp⟩ := hpos pr (List.mem_cons_self _ _)
    rw [List.foldl_cons, hc]
    have hstep : ENum.minCap (.fin a) (some c) = .fin (min a c) := rfl
    rw [hstep]
    obtain ⟨m, hm, hm1, hm2, hm3⟩ :=
      ih (min a c) (fun pr' hpr' => hpos pr' (List.mem_cons_of_mem _ hpr'))
        (le_min ha hcp)
    refine ⟨m, hm, hm1, le_trans hm2 (min_le_left a c), ?_⟩
    intro pr' hpr' c' hc'
    rcases List.mem_cons.mp hpr' with h | h
    · subst h
      rw [hc] at hc'
      have : c = c' := Option.some.inj hc'
      subst this
      exact le_trans hm2 (min_le_right a c)
    · exact hm3 pr' h c' hc'

theorem minCapOf_pos (cap : Cap) (x y : Str) (rest : List Str)
    (hpp : pairsPos cap (x :: y :: rest)) :
    ∃ m, minCapOf cap (x :: y :: rest) = .fin m ∧ 1 ≤ m ∧
      ∀ pr ∈ (x :: y :: rest).zip (y :: rest), ∀ c,
        pairCap cap pr.1 pr.2 = some c → m ≤ c := by
  have hzip : (x :: y :: rest).zip (x :: y :: rest).tail
      = (x, y) :: (y :: rest).zip rest := rfl
  obtain ⟨c0, hc0, hc0p⟩ := hpp (x, y) (by rw [hzip]; exact List.mem_cons_self _ _)
  unfold minCapOf
  rw [hzip, List.foldl_cons, hc0]
  have hstep : ENum.minCap .inf (some c0) = .fin c0 := rfl
  rw [hstep]
  have hsub : ∀ pr ∈ (y :: rest).zip rest, ∃ c, pairCap cap pr.1 pr.2 = some c ∧ 0 < c := by
    intro pr hpr
    exact hpp pr (by rw [hzip]; exact List.mem_cons_of_mem _ hpr)
  obtain ⟨m, hm, hm1, hm2, hm3⟩ := minCap_fold cap ((y :: rest).zip rest) c0 hsub hc0p
  refine ⟨m, hm, hm1, ?_⟩
  intro pr hpr c hc
  rcases List.mem_cons.mp hpr with h | h
  · subst h
    rw [hc0] at hc
    have : c0 = c := Option.some.inj hc
    subst this
    exact hm2
  · exact hm3 pr h c hc

theorem augmentPair_other (mv : Int) (cap : Cap) (pr : Str × Str) (s : Str)
    (h1 : pr.1 ≠ s) (h2 : pr.2 ≠ s) :
    alGet? (augmentPair mv cap pr) s = alGet? cap s := by
  have key : ∀ (c : Cap), alGet? c s = alGet? cap s →
      alGet? (match alGet? c pr.2 with
              | some row => alSet c pr.2 (alSet row pr.1 ((alGet? row pr.1).getD 0 + mv))
              | none => c) s = alGet? cap s := by
    intro c hc
    rcases h : alGet? c pr.2 with _ | row
    · exact hc
    · dsimp only
      rw [alGet?_alSet_ne _ _ _ _ (Ne.symm h2)]
      exact hc
  have key1 : alGet? (match alGet? cap pr.1 with
              | some row => alSet cap pr.1 (alSet row pr.2 ((alGet? row pr.2).getD 0 - mv))
              | none => cap) s = alGet? cap s := by
    rcases h : alGet? cap pr.1 with _ | row
    · rfl
    · dsimp only
      exact alGet?_alSet_ne _ _ _ _ (Ne.symm h1)
  unfold augmentPair
  exact key _ key1

theorem foldl_augment_other (mv : Int) (s : Str) :
    ∀ (l : List (Str × Str)) (cap : Cap),
      (∀ pr ∈ l, pr.1 ≠ s ∧ pr.2 ≠ s) →
      alGet? (l.foldl (augmentPair mv) cap) s = alGet? cap s := by
  intro l
  induction l with
  | nil => intro cap _; rfl
  | cons pr l ih =>
    intro cap hl
    rw [List.foldl_cons, ih (augmentPair mv cap pr)
      (fun pr' hpr' => hl pr' (List.mem_cons_of_mem _ hpr'))]
    obtain ⟨h1, h2⟩ := hl pr (List.mem_cons_self _ _)
    exact augmentPair_other mv cap pr s h1 h2

theorem augmentPair_src (mv : Int) (cap : Cap) (s y : Str) (row : List (Str × Int))
    (hne : y ≠ s) (hrow : alGet? cap s = some row) :
    alGet? (augmentPair mv cap (s, y)) s
      = some (alSet row y ((alGet? row y).getD 0 - mv)) := by
  unfold augmentPair
  dsimp only
  rw [hrow]
  dsimp only
  rcases h2 : alGet? (alSet cap s (alSet row y ((alGet? row y).getD 0 - mv))) y
    with _ | rowy
  · dsimp only
    exact alGet?_alSet_self _ _ _
  · dsimp only
    rw [alGet?_alSet_ne _ _ _ _ (Ne.symm hne)]
    exact alGet?_alSet_self _ _ _

theorem capUpdate_keys (cap : Cap) (k : Str) (f : List (Str × Int) → List (Str × Int)) :
    alKeys (match alGet? cap k with
            | some row => alSet cap k (f row)
            | none => cap) = alKeys cap := by
  rcases h : alGet? cap k with _ | row
  · rfl
  · dsimp only
    rw [alKeys_alSet,
      if_pos ((alHas_iff _ _).mpr ((alGet?_isSome_iff _ _).mp (by rw [h]; rfl)))]

theorem augmentPair_keys (mv : Int) (cap : Cap) (pr : Str × Str) :
    alKeys (augmentPair mv cap pr) = alKeys cap := by
  have key1 := capUpdate_keys cap pr.1
    (fun row => alSet row pr.2 ((alGet? row pr.2).getD 0 - mv))
  have key2 := capUpdate_keys
    (match alGet? cap pr.1 with
     | some row => alSet cap pr.1 (alSet row pr.2 ((alGet? row pr.2).getD 0 - mv))
     | none => cap) pr.2
    (fun row => alSet row pr.1 ((alGet? row pr.1).getD 0 + mv))
  unfold augmentPair
  rw [key2, key1]

theorem capUpdate_inv (cap0 cap : Cap) (k kk : Str) (f : List (Str × Int) → Int)
    (hkk : kk ∈ alKeys cap0)
    (hnd : ∀ r ∈ cap, (alKeys r.2).Nodup)
    (hok : ∀ r ∈ cap, ∀ q ∈ r.2, q.1 ∈ alKeys cap0) :
    (∀ r ∈ (match alGet? cap k with
             | some row => alSet cap k (alSet row kk (f row))
             | none => cap), (alKeys r.2).Nodup) ∧
    (∀ r ∈ (match alGet? cap k with
             | some row => alSet cap k (alSet row kk (f row))
             | none => cap), ∀ q ∈ r.2, q.1 ∈ alKeys cap0) := by
  rcases h : alGet? cap k with _ | row
  · exact ⟨hnd, hok⟩
  · dsimp only
    constructor
    · intro r hr
      rcases mem_alSet _ _ _ _ hr with h' | h'
      · rw [h']
        exact alKeys_alSet_nodup _ _ _ (hnd (k, row) (alGet?_mem _ _ _ h))
      · exact hnd r h'
    · intro r hr q hq
      rcases mem_alSet _ _ _ _ hr with h' | h'
      · rw [h'] at hq
        dsimp only at hq
        rcases mem_alSet _ _ _ _ hq with h'' | h''
        · rw [h'']
          exact hkk
        · exact hok (k, row) (alGet?_mem _ _ _ h) q h''
      · exact hok r h' q hq

theorem augmentPair_inv (mv : Int) (cap : Cap) (pr : Str × Str)
    (h1 : pr.1 ∈ alKeys cap) (h2 : pr.2 ∈ alKeys cap)
    (hnd : ∀ r ∈ cap, (alKeys r.2).Nodup)
    (hok : ∀ r ∈ cap, ∀ q ∈ r.2, q.1 ∈ alKeys cap) :
    (∀ r ∈ augmentPair mv cap pr, (alKeys r.2).Nodup) ∧
    (∀ r ∈ augmentPair mv cap pr, ∀ q ∈ r.2, q.1 ∈ alKeys cap) := by
  obtain ⟨ha, hb⟩ := capUpdate_inv cap cap pr.1 pr.2
    (fun row => (alGet? row pr.2).getD 0 - mv) h2 hnd hok
  obtain ⟨hc, hd⟩ := capUpdate_inv cap
    (match alGet? cap pr.1 with
     | some row => alSet cap pr.1 (alSet row pr.2 ((alGet? row pr.2).getD 0 - mv))
     | none => cap) pr.2 pr.1
    (fun row => (alGet? row pr.1).getD 0 + mv) h1 ha hb
  unfold augmentPair
  exact ⟨hc, hd⟩

theorem foldl_augment_inv (mv : Int) :
    ∀ (l : List (Str × Str)) (cap : Cap),
      (∀ pr ∈ l, pr.1 ∈ alKeys cap ∧ pr.2 ∈ alKeys cap) →
      (∀ r ∈ cap, (alKeys r.2).Nodup) →
      (∀ r ∈ cap, ∀ q ∈ r.2, q.1 ∈ alKeys cap) →
      alKeys (l.foldl (augmentPair mv) cap) = alKeys cap ∧
      (∀ r ∈ l.foldl (augmentPair mv) cap, (alKeys r.2).Nodup) ∧
      (∀ r ∈ l.foldl (augmentPair mv) cap, ∀ q ∈ r.2,
          q.1 ∈ alKeys (l.foldl (augmentPair mv) cap)) := by
  intro l
  induction l with
  | nil =>
    intro cap _ hnd hok
    exact ⟨rfl, hnd, hok⟩
  | cons pr l ih =>
    intro cap hl hnd hok
    obtain ⟨h1, h2⟩ := hl pr (List.mem_cons_self _ _)
    obtain ⟨hnd', hok'⟩ := augmentPair_inv mv cap pr h1 h2 hnd hok
    have hkeys : alKeys (augmentPair mv cap pr) = alKeys cap :=
      augmentPair_keys mv cap pr
    have hok'' : ∀ r ∈ augmentPair mv cap pr, ∀ q ∈ r.2,
        q.1 ∈ alKeys (augmentPair mv cap pr) := by
      intro r hr q hq
      rw [hkeys]
      exact hok' r hr q hq
    have hl' : ∀ pr' ∈ l, pr'.1 ∈ alKeys (augmentPair mv cap pr)
        ∧ pr'.2 ∈ alKeys (augmentPair mv cap pr) := by
      intro pr' hpr'
      rw [hkeys]
      exact hl pr' (List.mem_cons_of_mem _ hpr')
    obtain ⟨hA, hB, hC⟩ := ih (augmentPair mv cap pr) hl' hnd' hok''
    rw [List.foldl_cons]
    exact ⟨by rw [hA, hkeys], hB, hC⟩

theorem outSum_augment (cap : Cap) (s0 y : Str) (rest : List Str) (mv c0 : Int)
    (row : List (Str × Int))
    (hpn : (s0 :: y :: rest).Nodup)
    (hrow : alGet? cap s0 = some row)
    (hrc0 : alGet? row y = some c0)
    (h1 : 1 ≤ mv) (h2 : mv ≤ c0) :
    outSum (((s0 :: y :: rest).zip (y :: rest)).foldl (augmentPair mv) cap) s0
        + mv.toNat = outSum cap s0 ∧ 1 ≤ mv.toNat := by
  have hs0m : s0 ∉ y :: rest := (List.nodup_cons.mp hpn).1
  have hyne : y ≠ s0 := fun he => hs0m (he ▸ List.mem_cons_self _ _)
  have hzip : (s0 :: y :: rest).zip (y :: rest)
      = (s0, y) :: (y :: rest).zip rest := rfl
  rw [hzip, List.foldl_cons]
  have havoid : ∀ pr ∈ (y :: rest).zip rest, pr.1 ≠ s0 ∧ pr.2 ≠ s0 := by
    intro pr hpr
    obtain ⟨a, b⟩ := pr
    obtain ⟨ha, hb⟩ := List.of_mem_zip hpr
    constructor
    · exact fun he => hs0m (he ▸ ha)
    · exact fun he => hs0m (he ▸ List.mem_cons_of_mem _ hb)
  have hget : alGet? (((y :: rest).zip rest).foldl (augmentPair mv)
      (augmentPair mv cap (s0, y))) s0
      = alGet? (augmentPair mv cap (s0, y)) s0 :=
    foldl_augment_other mv s0 _ _ havoid
  have hsrc : alGet? (augmentPair mv cap (s0, y)) s0
      = some (alSet row y ((alGet? row y).getD 0 - mv)) :=
    augmentPair_src mv cap s0 y row hyne hrow
  rw [hrc0] at hsrc
  simp only [Option.getD_some] at hsrc
  unfold outSum
  rw [hget, hsrc, hrow]
  dsimp only
  have hsum := rowSum_alSet_mem row y (c0 - mv) c0 hrc0
  have hge := rowSum_ge_entry row y c0 hrc0
  omega

theorem ffLoop_term (s0 sink : Str) (hne : s0 ≠ sink) :
    ∀ (N : Nat), ∀ (cap : Cap) (mf0 : Int) (fuel : Nat),
      (∀ r ∈ cap, (alKeys r.2).Nodup) →
      (∀ r ∈ cap, ∀ q ∈ r.2, q.1 ∈ alKeys cap) →
      s0 ∈ alKeys cap →
      outSum cap s0 ≤ N → N < fuel →
      ∃ ss fl, ffLoop s0 sink fuel cap (.fin mf0) = some ss ∧
        mf0 ≤ fl ∧ fl ≤ mf0 + (outSum cap s0 : Int) ∧
        ss.getLast? = some { tag := .nodeComplete, totalWeight := .fin fl,
                             msg := .flowDone s0 sink (.fin fl) } ∧
        (∀ st ∈ ss, st.tag = .flowUpdate → ∃ mv, st.value = .fin mv ∧ 1 ≤ mv) := by
  intro N
  induction N using Nat.strong_induction_on with
  | _ N ih =>
    intro cap mf0 fuel hnd hok hs0 hNout hNf
    obtain ⟨f, rfl⟩ : ∃ f, fuel = f + 1 := ⟨fuel - 1, by omega⟩
    rw [ffLoop]
    have hQ0 : QInv cap s0 [s0] [(s0, [s0])] := by
      intro e he
      rw [List.mem_singleton] at he
      subst he
      refine ⟨rfl, by simp, by simp, ?_, ?_, ?_⟩
      · intro pr hpr
        simp at hpr
      · exact fun yy hy => hy
      · intro yy hy
        rw [List.mem_singleton] at hy
        subst hy
        exact hs0
    have hmeas : [(s0, [s0])].length + fpcnt cap [s0] < fpFuel cap := by
      have h1 : fpcnt cap [s0] ≤ (capUniv cap).length := by
        unfold fpcnt
        exact List.countP_le_length _
      unfold fpFuel
      simp only [List.length_singleton]
      omega
    obtain ⟨hno, hfd, hnp⟩ := findPath_ok cap s0 sink hnd hok (fpFuel cap)
      [(s0, [s0])] [s0] hQ0 hmeas
    rcases hr : findPath cap sink (fpFuel cap) [(s0, [s0])] [s0] with _ | ⟨ss, p⟩ | ss
    · exact absurd hr hno
    · dsimp only
      obtain ⟨htags, hph, hpl, hpn, hpp, hpkk⟩ := hfd ss p hr
      obtain ⟨y, rest, rfl⟩ : ∃ y rest, p = s0 :: y :: rest := by
        match p, hph, hpl with
        | [], hph2, _ => exact absurd hph2 (by simp)
        | [a], hph2, hpl2 =>
          have ha : a = s0 := Option.some.inj (by simpa using hph2)
          have hb : a = sink := Option.some.inj (by simpa using hpl2)
          exact absurd (ha.symm.trans hb) hne
        | a :: b :: t, hph2, _ =>
          have ha : a = s0 := Option.some.inj (by simpa using hph2)
          exact ⟨b, t, by rw [ha]⟩
      rw [if_neg (by simp : ¬ ((s0 :: y :: rest).isEmpty = true))]
      obtain ⟨mv, hmc, hmv1, hbound⟩ := minCapOf_pos cap s0 y rest hpp
      have hfirstmem : (s0, y) ∈ (s0 :: y :: rest).zip (y :: rest) :=
        List.mem_cons_self _ _
      obtain ⟨c0, hc0, hc0p⟩ := hpp (s0, y) hfirstmem
      have hmvc0 : mv ≤ c0 := hbound (s0, y) hfirstmem c0 hc0
      obtain ⟨row, hrow⟩ : ∃ r, alGet? cap s0 = some r := by
        rcases h : alGet? cap s0 with _ | r
        · exfalso
          have hs := (alGet?_isSome_iff cap s0).mpr hs0
          rw [h] at hs
          simp at hs
        · exact ⟨r, rfl⟩
      have hrc0 : alGet? row y = some c0 := by
        unfold pairCap at hc0
        rw [hrow] at hc0
        exact hc0
      rw [hmc]
      have hAA : augmentAll cap (s0 :: y :: rest) (.fin mv)
          = ((s0 :: y :: rest).zip (y :: rest)).foldl (augmentPair mv) cap := rfl
      rw [hAA]
      have hadd : ENum.add (.fin mf0) (.fin mv) = .fin (mf0 + mv) := rfl
      rw [hadd]
      have hlk : ∀ pr ∈ (s0 :: y :: rest).zip (y :: rest),
          pr.1 ∈ alKeys cap ∧ pr.2 ∈ alKeys cap := by
        intro pr hpr
        obtain ⟨a, b⟩ := pr
        obtain ⟨ha, hb⟩ := List.of_mem_zip hpr
        exact ⟨hpkk a ha, hpkk b (List.mem_cons_of_mem _ hb)⟩
      obtain ⟨hK, hnd', hok'⟩ := foldl_augment_inv mv _ cap hlk hnd hok
      have hs0' : s0 ∈ alKeys (((s0 :: y :: rest).zip (y :: rest)).foldl
          (augmentPair mv) cap) := by
        rw [hK]
        exact hs0
      obtain ⟨hout, hmv1n⟩ :=
        outSum_augment cap s0 y rest mv c0 row hpn hrow hrc0 hmv1 hmvc0
      obtain ⟨ss2, fl, hloop, hfl1, hfl2, hlast, htags2⟩ :=
        ih (N - 1) (by omega) _ (mf0 + mv) f hnd' hok' hs0' (by omega) (by omega)
      rw [hloop]
      dsimp only
      refine ⟨_, fl, rfl, by omega, by omega, ?_, ?_⟩
      · exact List.mem_getLast?_append_of_mem_getLast? hlast
      · intro st hst htag
        rcases List.mem_append.mp hst with hst | hst
        · rcases List.mem_append.mp hst with hst | hst
          · rcases htags st hst with h' | h' <;> rw [htag] at h' <;>
              exact Tag.noConfusion h'
          · rw [List.mem_singleton] at hst
            subst hst
            exact ⟨mv, rfl, hmv1⟩
        · exact htags2 st hst htag
    · dsimp only
      refine ⟨_, mf0, rfl, le_refl _, by omega, List.getLast?_concat _, ?_⟩
      intro st hst htag
      rcases List.mem_append.mp hst with hst | hst
      · rcases hnp ss hr st hst with h' | h' <;> rw [htag] at h' <;>
          exact Tag.noConfusion h'
      · rw [List.mem_singleton] at hst
        subst hst
        exact absurd htag (by simp)

theorem fordFulkerson_selfloop_none :
    ∀ fuel, fordFulkerson (emptyGraph.addNode ['A']).2 ['A'] ['A'] fuel = none := by
  have h : ∀ f mf, ffLoop ['A'] ['A'] f [(['A'], ([] : List (Str × Int)))] mf = none := by
    intro f
    induction f with
    | zero => intro mf; rfl
    | succ f ih =>
      intro mf
      rw [ffLoop]
      have hf : findPath [(['A'], ([] : List (Str × Int)))] ['A']
          (fpFuel [(['A'], ([] : List (Str × Int)))]) [(['A'], [['A']])] [['A']]
          = .found [{ tag := .nodeCurrent, nodeId := some ['A'],
                      highlightNodes := some [['A']],
                      msg := .findingAug [['A']] }] [['A']] := by rfl
      rw [hf]
      dsimp only
      rw [if_neg (by decide : ¬ ([['A']] : List Str).isEmpty = true)]
      rw [show augmentAll [(['A'], ([] : List (Str × Int)))] [['A']]
            (minCapOf [(['A'], ([] : List (Str × Int)))] [['A']])
          = [(['A'], ([] : List (Str × Int)))] from rfl]
      rw [ih]
  intro fuel
  exact h fuel (.fin 0)

/-- C5 counterexample: on the one-vertex, zero-edge graph (whose edge
weights are vacuously positive integers), running the producer with source
and sink both `"A"` never terminates: no fuel makes the augmenting loop
exit, because every round finds the single-vertex path `["A"]`, whose
bottleneck over zero consecutive pairs stays `Infinity`, augments nothing,
and loops again on an unchanged residual table. -/
theorem C5_counterexample :
    ¬ ∃ (fuel : Nat) (ss : List Step),
        fordFulkerson (emptyGraph.addNode ['A']).2 ['A'] ['A'] fuel = some ss := by
  rintro ⟨fuel, ss, h⟩
  rw [fordFulkerson_selfloop_none fuel] at h
  exact Option.noConfusion h

/-- C5 (amended): on a well-formed graph, whenever the uppercased source
identifier names a vertex and differs from the uppercased sink identifier,
the fordFulkerson producer terminates (some fuel suffices), its trace ends
with the node-complete step reporting a finite maximum flow between 0 and
the total residual capacity leaving the source, and every flow-update step
records a strictly positive finite bottleneck — so each iteration of the
augmenting loop either finds no path and stops or strictly increases the
accumulated flow.  The counterexample shows that without the
source-differs-from-sink proviso the loop need not terminate at all. -/
theorem C5_ff_termination (g : Graph) (sourceId sinkId : Str)
    (hwf : g.wf)
    (hsrc : g.hasNode (toUpperS sourceId) = true)
    (hne : toUpperS sourceId ≠ toUpperS sinkId) :
    ∃ (fuel : Nat) (ss : List Step) (fl : Int),
      fordFulkerson g sourceId sinkId fuel = some ss ∧
      0 ≤ fl ∧ fl ≤ (outSum (capInit g) (toUpperS sourceId) : Int) ∧
      ss.getLast? = some { tag := .nodeComplete, totalWeight := .fin fl,
                           msg := .flowDone (toUpperS sourceId) (toUpperS sinkId)
                             (.fin fl) } ∧
      ∀ st ∈ ss, st.tag = .flowUpdate → ∃ mv, st.value = .fin mv ∧ 1 ≤ mv := by
  obtain ⟨ss, fl, h1, h2, h3, h4, h5⟩ :=
    ffLoop_term (toUpperS sourceId) (toUpperS sinkId) hne
      (outSum (capInit g) (toUpperS sourceId)) (capInit g) 0
      (outSum (capInit g) (toUpperS sourceId) + 1)
      (capInit_rows_nodup g) (capInit_rowsOK g hwf)
      ((capInit_keys g _).mpr hsrc) (Nat.le_refl _) (by omega)
  refine ⟨outSum (capInit g) (toUpperS sourceId) + 1, ss, fl, h1, h2, ?_, h4, h5⟩
  omega

theorem C5_ff_termination_witness :
    sampleG.wf ∧ sampleG.hasNode (toUpperS ['A']) = true ∧
      toUpperS ['A'] ≠ toUpperS ['D'] ∧
      (∃ (fuel : Nat) (ss : List Step) (fl : Int),
        fordFulkerson sampleG ['A'] ['D'] fuel = some ss ∧
        0 ≤ fl ∧ fl ≤ (outSum (capInit sampleG) (toUpperS ['A']) : Int) ∧
        ss.getLast? = some { tag := .nodeComplete, totalWeight := .fin fl,
                             msg := .flowDone (toUpperS ['A']) (toUpperS ['D'])
                               (.fin fl) } ∧
        ∀ st ∈ ss, st.tag = .flowUpdate → ∃ mv, st.value = .fin mv ∧ 1 ≤ mv) :=
  ⟨by decide, by decide, by decide,
   C5_ff_termination sampleG ['A'] ['D'] (by decide) (by decide) (by decide)⟩

end CTRR
